import Mathlib

/-!
Verification of the grid-based shortest-path search core (`search/algorithms.py`).

The Python module is shallowly embedded: the mutable `State` objects become an
immutable structure (updates become functional record updates), Python `float`
costs become `Rat` (all costs arising from the documented cost model are exact
halves, so rational arithmetic is exact), the `heapq` priority queue is embedded
by translating CPython's `heappush` / `heappop` / `heapify` (with their
`_siftdown` / `_siftup` helpers) verbatim on `List State`, and the `CLOSED`
dictionaries become association lists over the integer canonical keys.
The map collaborator is a parameter `succ : State → List State`, as in the
design: it produces successor states already stamped with their g-values.
The while-loops are embedded with an explicit fuel argument; `none` means the
fuel was exhausted before the loop terminated.
-/

set_option maxHeartbeats 1000000

/-- `State` from `algorithms.py`: grid position `(x, y)` plus the mutable
bookkeeping fields `g`, `h` and `cost`. -/
structure State where
  x : Int
  y : Int
  g : Rat
  h : Rat
  cost : Rat
deriving DecidableEq, Repr, Inhabited

/-- `State.__init__`: requires `x` and `y`; all other fields start at `0`. -/
def State.init (x y : Int) : State := ⟨x, y, 0, 0, 0⟩

/-- `State.state_hash`: returns `y * map_width + x`.  The static class variable
`State.map_width` is threaded explicitly as the parameter `w`. -/
def State.state_hash (w : Int) (s : State) : Int := s.y * w + s.x

/-- `State.__eq__`: two states are equal iff their `x` and `y` agree. -/
def State.eqb (a b : State) : Bool := a.x == b.x && a.y == b.y

/-- `State.__lt__`: comparison by the `cost` field (used by the heap). -/
def State.ltb (a b : State) : Bool := decide (a.cost < b.cost)

/-! ### CPython `heapq`, translated function by function. -/

/-- The `while` loop of `heapq._siftdown` (bubble the carried `newitem` towards
the root, shifting larger parents down).  The fuel only needs to be `pos`,
since `pos` strictly decreases. -/
def siftdownLoop : Nat → List State → State → Nat → Nat → List State
  | 0, heap, newitem, _, pos => heap.set pos newitem
  | fuel + 1, heap, newitem, startpos, pos =>
    if startpos < pos then
      let parentpos := (pos - 1) / 2
      let parent := heap.getD parentpos default
      if newitem.cost < parent.cost then
        siftdownLoop fuel (heap.set pos parent) newitem startpos parentpos
      else
        heap.set pos newitem
    else
      heap.set pos newitem

/-- `heapq._siftdown heap startpos pos`. -/
def siftdown (heap : List State) (startpos pos : Nat) : List State :=
  siftdownLoop pos heap (heap.getD pos default) startpos pos

/-- The `while` loop of `heapq._siftup` (move the hole at `pos` down to a leaf,
always to the smaller child); returns the final heap and hole position.
`pos` strictly increases and stays below `endpos`, so fuel `endpos` suffices. -/
def siftupLoop : Nat → List State → Nat → Nat → List State × Nat
  | 0, heap, _, pos => (heap, pos)
  | fuel + 1, heap, endpos, pos =>
    let childpos := 2 * pos + 1
    if childpos < endpos then
      let childpos :=
        if childpos + 1 < endpos ∧
            ¬ (heap.getD childpos default).cost < (heap.getD (childpos + 1) default).cost then
          childpos + 1
        else childpos
      siftupLoop fuel (heap.set pos (heap.getD childpos default)) endpos childpos
    else
      (heap, pos)

/-- `heapq._siftup heap pos`: sink the hole to a leaf, put the saved item
there, then `_siftdown` it back up (stopping at `startpos = pos`). -/
def siftup (heap : List State) (pos : Nat) : List State :=
  let endpos := heap.length
  let res := siftupLoop endpos heap endpos pos
  siftdown (res.1.set res.2 (heap.getD pos default)) pos res.2

/-- `heapq.heappush`: append, then sift down from the new last slot. -/
def heappush (heap : List State) (item : State) : List State :=
  siftdown (heap ++ [item]) 0 heap.length

/-- `heapq.heappop`: pop the last element; if the heap is still nonempty,
move the last element to the root and sift up.  `none` on the empty list
(the algorithms only pop inside `while OPEN:`). -/
def heappop (heap : List State) : Option (State × List State) :=
  match heap.getLast? with
  | none => none
  | some lastelt =>
    let rest := heap.dropLast
    if rest.isEmpty then some (lastelt, [])
    else some (rest.getD 0 default, siftup (rest.set 0 lastelt) 0)

/-- The `for i in reversed(range(n//2))` loop of `heapq.heapify`. -/
def heapifyLoop : Nat → List State → List State
  | 0, heap => heap
  | i + 1, heap => heapifyLoop i (siftup heap i)

/-- `heapq.heapify`. -/
def pyHeapify (heap : List State) : List State :=
  heapifyLoop (heap.length / 2) heap

/-! ### Python dictionaries keyed by the canonical state key. -/

/-- Dictionary lookup (`d[k]` / `k in d`), embedded on an association list. -/
def PyDict.find {α : Type} : List (Int × α) → Int → Option α
  | [], _ => none
  | (k, v) :: t, key => if k = key then some v else PyDict.find t key

/-- Dictionary store `d[k] = v`: replace the binding if present, else add it. -/
def PyDict.store {α : Type} : List (Int × α) → Int → α → List (Int × α)
  | [], k, v => [(k, v)]
  | (k', v') :: t, k, v => if k' = k then (k, v) :: t else (k', v') :: PyDict.store t k v

/-! ### The search algorithms. -/

/-- Python exceptions that the module can raise. -/
inductive PyExc where
  | notImplementedError
  | keyError
deriving DecidableEq, Repr

/-- Outcome of a `search` call: either an exception or `(cost, expansions)`. -/
abbrev SearchResult := Except PyExc (Rat × Nat)

/-- `Search.search` on the abstract base class: `raise NotImplementedError()`. -/
def Search.search (_start _goal : State) : SearchResult :=
  .error .notImplementedError

/-- The body of Dijkstra's `for n_prime in self.map.successors(node)` loop,
acting on the pair (OPEN, CLOSED).  In the improving branch the Python code
mutates the local successor object `n_prime` (`set_cost`) and re-heapifies
OPEN without pushing; the mutated local is then discarded, so only the
re-heapify and the CLOSED update are observable. -/
def Dijkstra.succStep (w : Int) (acc : List State × List (Int × Rat)) (nP : State) :
    List State × List (Int × Rat) :=
  match PyDict.find acc.2 (nP.state_hash w) with
  | none =>
    let nP2 : State := { nP with cost := nP.g }
    (heappush acc.1 nP2, PyDict.store acc.2 (nP2.state_hash w) nP2.cost)
  | some v =>
    if nP.g < v then
      (pyHeapify acc.1, PyDict.store acc.2 (nP.state_hash w) nP.g)
    else
      acc

/-- The `while self.OPEN:` loop of `Dijkstra.search`, with fuel.  Besides the
result it returns the trace of `cost` fields of the states popped from OPEN,
in pop order (used to state the monotonicity property). -/
def Dijkstra.run (succ : State → List State) (w : Int) (goal : State) :
    Nat → List State → List (Int × Rat) → Nat → Option SearchResult × List Rat
  | 0, _, _, _ => (none, [])
  | fuel + 1, op, closed, nexp =>
    match heappop op with
    | none => (some (.ok (-1, 0)), [])
    | some (node, rest) =>
      if node.eqb goal then
        match PyDict.find closed (node.state_hash w) with
        | some c => (some (.ok (c, nexp + 1)), [node.cost])
        | none => (some (.error .keyError), [node.cost])
      else
        let acc := (succ node).foldl (Dijkstra.succStep w) (rest, closed)
        let r := Dijkstra.run succ w goal fuel acc.1 acc.2 (nexp + 1)
        (r.1, node.cost :: r.2)

/-- `Dijkstra.search`: reset OPEN and CLOSED, push `start`, record its cost
under its canonical key, and run the loop. -/
def Dijkstra.search (succ : State → List State) (w : Int) (fuel : Nat)
    (start goal : State) : Option SearchResult :=
  (Dijkstra.run succ w goal fuel (heappush [] start)
    (PyDict.store [] (start.state_hash w) start.cost) 0).1

/-- `AStar.h_value`: with `dx = |x - goal.x|` and `dy = |y - goal.y|`, the
octile estimate `max dx dy + 0.5 * min dx dy`. -/
def AStar.h_value (goal s : State) : Rat :=
  let x : Int := |s.x - goal.x|
  let y : Int := |s.y - goal.y|
  ((max x y : Int) : Rat) + (1 / 2 : Rat) * ((min x y : Int) : Rat)

/-- The body of A*'s successor loop.  CLOSED maps canonical keys to finalized
states; a successor whose key is in CLOSED is skipped; a successor equal (by
position) to an OPEN entry may lower that entry's `g`/`cost` in place; an
entirely new successor is pushed with `cost = g + h`. -/
def AStar.succStep (w : Int) (goal : State) (acc : List State × List (Int × State)) (nP : State) :
    List State × List (Int × State) :=
  if (PyDict.find acc.2 (nP.state_hash w)).isSome then acc
  else
    match acc.1.findIdx? (fun m => m.eqb nP) with
    | some idx =>
      let m := acc.1.getD idx default
      if nP.g < m.g then
        let m2 : State := { m with g := nP.g }
        let m3 : State := { m2 with cost := nP.g + AStar.h_value goal m2 }
        (pyHeapify (acc.1.set idx m3), acc.2)
      else
        acc
    | none =>
      let nP2 : State := { nP with cost := nP.g + AStar.h_value goal nP }
      (heappush acc.1 nP2, acc.2)

/-- The `while self.OPEN:` loop of `AStar.search`, with fuel. -/
def AStar.run (succ : State → List State) (w : Int) (goal : State) :
    Nat → List State → List (Int × State) → Nat → Option SearchResult
  | 0, _, _, _ => none
  | fuel + 1, op, closed, nexp =>
    match heappop op with
    | none => some (.ok (-1, 0))
    | some (node, rest) =>
      if node.eqb goal then some (.ok (node.cost, nexp + 1))
      else
        let closed2 := PyDict.store closed (node.state_hash w) node
        let acc := (succ node).foldl (AStar.succStep w goal) (rest, closed2)
        AStar.run succ w goal fuel acc.1 acc.2 (nexp + 1)

/-- `AStar.search`: reset OPEN and CLOSED, push `start`, run the loop. -/
def AStar.search (succ : State → List State) (w : Int) (fuel : Nat)
    (start goal : State) : Option SearchResult :=
  AStar.run succ w goal fuel (heappush [] start) [] 0

/-! ### A concrete map collaborator.

The collaborator contract: an 8-connected bounded grid with obstacle cells,
cardinal edge cost `1`, diagonal edge cost `3/2`; diagonal moves may not cut
blocked corners; successors are stamped with `g = parent.g + edge cost`. -/

/-- The eight grid moves with their edge costs (cardinal `1`, diagonal `3/2`). -/
def gridMoves : List (Int × Int × Rat) :=
  [(1, 0, 1), (-1, 0, 1), (0, 1, 1), (0, -1, 1),
   (1, 1, 3/2), (1, -1, 3/2), (-1, 1, 3/2), (-1, -1, 3/2)]

/-- A cell is passable when it lies in the `w × h` grid and is not blocked. -/
def passable (w h : Int) (obst : List (Int × Int)) (p : Int × Int) : Bool :=
  decide (0 ≤ p.1 ∧ p.1 < w ∧ 0 ≤ p.2 ∧ p.2 < h) && !(obst.contains p)

/-- Whether the move `mv` may be taken from cell `p`: the target must be
passable and a diagonal move must not cut a blocked corner. -/
def moveOk (w h : Int) (obst : List (Int × Int)) (p : Int × Int) (mv : Int × Int × Rat) : Bool :=
  passable w h obst (p.1 + mv.1, p.2 + mv.2.1) &&
    (mv.1 == 0 || mv.2.1 == 0 ||
      (passable w h obst (p.1 + mv.1, p.2) && passable w h obst (p.1, p.2 + mv.2.1)))

/-- The successor function of the concrete grid collaborator: each successor
is a fresh `State` stamped with the cumulative cost `parent.g + edge cost`. -/
def gridSucc (w h : Int) (obst : List (Int × Int)) (s : State) : List State :=
  gridMoves.filterMap fun mv =>
    if moveOk w h obst (s.x, s.y) mv then
      some ⟨s.x + mv.1, s.y + mv.2.1, s.g + mv.2.2, 0, 0⟩
    else
      none

/-- Modelled from the spec: the total cost of a path, given as the list of
visited cells, on the grid collaborator: each consecutive pair must be a legal
move (8-connected, in bounds, not blocked, no cut corners) and contributes its
edge cost (`1` cardinal, `3/2` diagonal); a one-cell path costs `0`.  This is
the reference notion of "path cost" used to state minimality. -/
def gridPathCost (w h : Int) (obst : List (Int × Int)) : List (Int × Int) → Option Rat
  | [] => none
  | [p] => if passable w h obst p then some 0 else none
  | p :: q :: t =>
    match gridMoves.findSome? (fun mv =>
        if q.1 = p.1 + mv.1 ∧ q.2 = p.2 + mv.2.1 ∧ moveOk w h obst p mv then
          some mv.2.2
        else none),
      gridPathCost w h obst (q :: t) with
    | some c, some rest => some (c + rest)
    | _, _ => none

/-! ### The concrete instance exhibiting the Dijkstra relaxation defect.

A 6 × 4 grid with obstacles at (3,1), (4,3) and (2,3); start (0,0),
goal (5,3).  Cell (5,2) is first recorded via a diagonal arrival of cost
13/2 and later improved to 6 by a cardinal arrival; the improved state is
never pushed, so Dijkstra expands the stale 13/2 copy and reaches the goal
with cost 15/2, although a cost-7 path exists (and A* returns 7). -/

def cexObst : List (Int × Int) := [(3, 1), (4, 3), (2, 3)]

def cexSucc : State → List State := gridSucc 6 4 cexObst

def cexStart : State := State.init 0 0

def cexGoal : State := State.init 5 3

/-- A concrete cost-7 path from (0,0) to (5,3) on the counterexample map. -/
def cexPath : List (Int × Int) := [(0, 0), (1, 1), (2, 2), (3, 2), (4, 2), (5, 2), (5, 3)]

/-! ### Auxiliary notions used to state and prove the properties. -/

/-- The position of a state (its identity under `State.__eq__`). -/
def State.pos (s : State) : Int × Int := (s.x, s.y)

/-- The cost field of the `i`-th entry of a heap (default past the end). -/
def hval (l : List State) (i : Nat) : Rat := (l.getD i default).cost

/-- The binary-heap shape invariant maintained by `heapq`: no entry compares
below its parent (CPython documents exactly `heap[k] <= heap[2*k+1]` and
`heap[k] <= heap[2*k+2]` with comparison by `__lt__`, i.e. by `cost`). -/
def heapProp (l : List State) : Prop :=
  ∀ i, 0 < i → i < l.length → hval l ((i - 1) / 2) ≤ hval l i

/-- `Desc r j`: index `j` lies in the subtree rooted at index `r` of the
implicit binary tree on array indices (children of `i` are `2i+1`, `2i+2`). -/
inductive Desc : Nat → Nat → Prop where
  | refl (i : Nat) : Desc i i
  | left (i : Nat) {k : Nat} : Desc (2 * i + 1) k → Desc i k
  | right (i : Nat) {k : Nat} : Desc (2 * i + 2) k → Desc i k

/-- The heap property localized to the subtree rooted at `r`: every strict
descendant of `r` compares at least its parent. -/
def heapAt (l : List State) (r : Nat) : Prop :=
  ∀ j, Desc r j → r < j → j < l.length → hval l ((j - 1) / 2) ≤ hval l j

/-- The positions reachable from `start` by iterating the map collaborator:
the start's position is reachable, and every successor of any state sitting
on a reachable position is reachable. -/
inductive PReach (succ : State → List State) (start : State) : Int × Int → Prop where
  | base : PReach succ start (start.x, start.y)
  | step {s n'} : PReach succ start (s.x, s.y) → n' ∈ succ s → PReach succ start (n'.x, n'.y)

/-- A state lies on the `w × h` grid. -/
def InB (w h : Int) (s : State) : Prop :=
  0 ≤ s.x ∧ s.x < w ∧ 0 ≤ s.y ∧ s.y < h

/-- The set of keys bound in an association-list dictionary. -/
def keysOf {α : Type} (d : List (Int × α)) : Finset Int :=
  (d.map Prod.fst).toFinset

/-- Termination measure for Dijkstra's loop over a key universe of size `N`:
OPEN's size plus the number of keys not yet recorded in CLOSED. -/
def Dijkstra.mu (N : Nat) (op : List State) (closed : List (Int × Rat)) : Nat :=
  op.length + (N - (keysOf closed).card)

/-- Termination measure for A*'s loop over a key universe of size `N`:
OPEN's size plus the number of keys neither finalized nor sitting in OPEN. -/
def AStar.mu (N : Nat) (w : Int) (op : List State) (closed : List (Int × State)) : Nat :=
  op.length + (N - (keysOf closed ∪ (op.map (State.state_hash w)).toFinset).card)

/-- The sequence of `cost` fields popped from OPEN during a `Dijkstra.search`
call, in pop order. -/
def Dijkstra.searchTrace (succ : State → List State) (w : Int) (fuel : Nat)
    (start goal : State) : List Rat :=
  (Dijkstra.run succ w goal fuel (heappush [] start)
    (PyDict.store [] (start.state_hash w) start.cost) 0).2

/-! ## Basic list and dictionary lemmas. -/

theorem list_getD_set_self {α : Type} : ∀ (l : List α) (i : Nat) (a d : α),
    i < l.length → (l.set i a).getD i d = a
  | [], i, _, _, h => absurd h (by simp)
  | _ :: _, 0, _, _, _ => rfl
  | _ :: t, i + 1, a, d, h =>
    list_getD_set_self t i a d (by simpa using h)

theorem list_getD_set_ne {α : Type} : ∀ (l : List α) (i j : Nat) (a d : α),
    i ≠ j → (l.set i a).getD j d = l.getD j d
  | [], _, _, _, _, _ => by simp
  | _ :: _, 0, 0, _, _, h => absurd rfl h
  | _ :: _, 0, _ + 1, _, _, _ => rfl
  | _ :: _, _ + 1, 0, _, _, _ => rfl
  | _ :: t, i + 1, j + 1, a, d, h =>
    list_getD_set_ne t i j a d (fun e => h (by omega))

theorem list_set_self {α : Type} : ∀ (l : List α) (i : Nat) (d : α),
    l.set i (l.getD i d) = l
  | [], _, _ => rfl
  | _ :: _, 0, _ => rfl
  | a :: t, i + 1, d => by
    simpa using list_set_self t i d

theorem pset_perm {α : Type} : ∀ (l : List α) (i : Nat) (b d : α),
    i < l.length → (l.getD i d :: l.set i b).Perm (b :: l)
  | [], i, _, _, h => absurd h (by simp)
  | a :: t, 0, b, d, _ => by
    simpa using List.Perm.swap b a t
  | a :: t, i + 1, b, d, h => by
    have ih := pset_perm t i b d (by simpa using h)
    have s1 : (t.getD i d :: a :: t.set i b).Perm (a :: t.getD i d :: t.set i b) :=
      List.Perm.swap a (t.getD i d) (t.set i b)
    have s2 : (a :: t.getD i d :: t.set i b).Perm (a :: b :: t) := ih.cons a
    have s3 : (a :: b :: t).Perm (b :: a :: t) := List.Perm.swap b a t
    simpa using (s1.trans s2).trans s3

theorem shift_perm {α : Type} (l : List α) (i j : Nat) (a d : α)
    (hij : i ≠ j) (hi : i < l.length) (hj : j < l.length) :
    ((l.set i (l.getD j d)).set j a).Perm (l.set i a) := by
  set v := l.getD j d with hv
  set u := l.getD i d with hu
  have h1 : (v :: (l.set i v).set j a).Perm (a :: l.set i v) := by
    have h0 := pset_perm (l.set i v) j a d (by simpa using hj)
    rwa [list_getD_set_ne l i j v d hij] at h0
  have h2 : (u :: l.set i v).Perm (v :: l) := pset_perm l i v d hi
  have h3 : (u :: l.set i a).Perm (a :: l) := pset_perm l i a d hi
  have big1 : (u :: v :: (l.set i v).set j a).Perm (v :: a :: l) :=
    ((((h1.cons u).trans (List.Perm.swap a u (l.set i v))).trans (h2.cons a)).trans
      (List.Perm.swap v a l))
  have big2 : (u :: v :: l.set i a).Perm (v :: a :: l) :=
    (List.Perm.swap v u (l.set i a)).trans (h3.cons v)
  exact ((big1.trans big2.symm).cons_inv).cons_inv


theorem PyDict.find_store_self {α : Type} : ∀ (d : List (Int × α)) (k : Int) (v : α),
    PyDict.find (PyDict.store d k v) k = some v
  | [], k, v => by simp [PyDict.store, PyDict.find]
  | (k', v') :: t, k, v => by
    by_cases h : k' = k <;>
      simp_all [PyDict.store, PyDict.find, PyDict.find_store_self t k v]

theorem PyDict.find_store_ne {α : Type} : ∀ (d : List (Int × α)) (k k' : Int) (v : α),
    k ≠ k' → PyDict.find (PyDict.store d k v) k' = PyDict.find d k'
  | [], k, k', v, h => by simp [PyDict.store, PyDict.find, h]
  | (k0, v0) :: t, k, k', v, h => by
    by_cases h0 : k0 = k <;>
      simp_all [PyDict.store, PyDict.find, PyDict.find_store_ne t k k' v h]

theorem PyDict.find_eq_none_iff {α : Type} : ∀ (d : List (Int × α)) (k : Int),
    PyDict.find d k = none ↔ k ∉ keysOf d
  | [], k => by simp [PyDict.find, keysOf]
  | (k0, v0) :: t, k => by
    by_cases h0 : k0 = k <;>
      simp_all [PyDict.find, keysOf, PyDict.find_eq_none_iff t k, eq_comm]

theorem keysOf_store {α : Type} : ∀ (d : List (Int × α)) (k : Int) (v : α),
    keysOf (PyDict.store d k v) = insert k (keysOf d)
  | [], k, v => by simp [PyDict.store, keysOf]
  | (k0, v0) :: t, k, v => by
    have ih := keysOf_store t k v
    by_cases h0 : k0 = k
    · subst h0
      simp [PyDict.store, keysOf, Finset.insert_idem]
    · simp only [keysOf, PyDict.store, if_neg h0, List.map_cons, List.toFinset_cons] at ih ⊢
      rw [ih, Finset.Insert.comm]

theorem findIdx?_some_spec {α : Type} (p : α → Bool) (d : α) :
    ∀ (l : List α) (i : Nat), l.findIdx? p = some i →
      i < l.length ∧ p (l.getD i d) = true
  | [], i, h => by simp [List.findIdx?] at h
  | a :: t, i, h => by
    rw [List.findIdx?_cons] at h
    by_cases ha : p a
    · simp [ha] at h
      subst h
      simpa using ha
    · simp [ha] at h
      obtain ⟨j, hj, rfl⟩ := h
      have := findIdx?_some_spec p d t j hj
      simpa using this

theorem findIdx?_none_spec {α : Type} (p : α → Bool) :
    ∀ (l : List α), l.findIdx? p = none → ∀ x ∈ l, p x = false
  | [], _, x, hx => by simp at hx
  | a :: t, h, x, hx => by
    rw [List.findIdx?_cons] at h
    by_cases ha : p a
    · simp [ha] at h
    · simp [ha] at h
      rcases List.mem_cons.mp hx with rfl | hxt
      · simpa using ha
      · exact h x hxt

/-! ## The heap operations permute their input (multiset preservation). -/

theorem siftdownLoop_length : ∀ (fuel : Nat) (heap : List State) (newitem : State)
    (s p : Nat), (siftdownLoop fuel heap newitem s p).length = heap.length
  | 0, heap, newitem, s, p => by simp [siftdownLoop]
  | fuel + 1, heap, newitem, s, p => by
    simp only [siftdownLoop]
    split
    · split
      · rw [siftdownLoop_length fuel]
        simp
      · simp
    · simp

theorem siftdownLoop_perm : ∀ (fuel : Nat) (heap : List State) (newitem : State)
    (s p : Nat), p < heap.length →
    (siftdownLoop fuel heap newitem s p).Perm (heap.set p newitem)
  | 0, heap, newitem, s, p, _ => by simp [siftdownLoop]
  | fuel + 1, heap, newitem, s, p, hp => by
    simp only [siftdownLoop]
    split
    · split
      · rename_i hsp _
        have hpp : (p - 1) / 2 < heap.length := by omega
        have hne : p ≠ (p - 1) / 2 := by omega
        have ih := siftdownLoop_perm fuel (heap.set p (heap.getD ((p - 1) / 2) default))
          newitem s ((p - 1) / 2) (by simpa using hpp)
        exact ih.trans (shift_perm heap p ((p - 1) / 2) newitem default hne hp hpp)
      · exact List.Perm.refl _
    · exact List.Perm.refl _

theorem siftdown_perm (heap : List State) (s p : Nat) (hp : p < heap.length) :
    (siftdown heap s p).Perm heap := by
  have h := siftdownLoop_perm p heap (heap.getD p default) s p hp
  rwa [list_set_self heap p default] at h

theorem siftdown_length (heap : List State) (s p : Nat) :
    (siftdown heap s p).length = heap.length :=
  siftdownLoop_length p heap (heap.getD p default) s p

theorem siftupLoop_spec : ∀ (fuel : Nat) (heap : List State) (endpos p : Nat),
    p < endpos →
    (siftupLoop fuel heap endpos p).1.length = heap.length ∧
      (siftupLoop fuel heap endpos p).2 < endpos
  | 0, heap, endpos, p, hp => by simp [siftupLoop, hp]
  | fuel + 1, heap, endpos, p, hp => by
    simp only [siftupLoop]
    split
    · rename_i hc
      split
      · have ih := siftupLoop_spec fuel
          (heap.set p (heap.getD (2 * p + 1 + 1) default)) endpos (2 * p + 1 + 1)
          (by rename_i hcc; exact hcc.1)
        simpa using ih
      · have ih := siftupLoop_spec fuel
          (heap.set p (heap.getD (2 * p + 1) default)) endpos (2 * p + 1) hc
        simpa using ih
    · exact ⟨rfl, hp⟩

theorem siftupLoop_set_perm : ∀ (fuel : Nat) (heap : List State) (endpos p : Nat)
    (a : State), p < endpos → endpos ≤ heap.length →
    (((siftupLoop fuel heap endpos p).1.set (siftupLoop fuel heap endpos p).2 a)).Perm
      (heap.set p a)
  | 0, heap, endpos, p, a, _, _ => by simp [siftupLoop]
  | fuel + 1, heap, endpos, p, a, hp, hle => by
    simp only [siftupLoop]
    split
    · rename_i hc
      have hplen : p < heap.length := lt_of_lt_of_le hp hle
      split
      · rename_i hcc
        have hc2 : 2 * p + 1 + 1 < endpos := hcc.1
        have ih := siftupLoop_set_perm fuel
          (heap.set p (heap.getD (2 * p + 1 + 1) default)) endpos (2 * p + 1 + 1) a
          hc2 (by simpa using hle)
        refine ih.trans ?_
        exact shift_perm heap p (2 * p + 1 + 1) a default (by omega) hplen
          (lt_of_lt_of_le hc2 hle)
      · have ih := siftupLoop_set_perm fuel
          (heap.set p (heap.getD (2 * p + 1) default)) endpos (2 * p + 1) a
          hc (by simpa using hle)
        refine ih.trans ?_
        exact shift_perm heap p (2 * p + 1) a default (by omega) hplen
          (lt_of_lt_of_le hc hle)
    · exact List.Perm.refl _

theorem siftup_perm (heap : List State) (p : Nat) (hp : p < heap.length) :
    (siftup heap p).Perm heap := by
  unfold siftup
  have hs := siftupLoop_spec heap.length heap heap.length p hp
  have h1 := siftdown_perm
    ((siftupLoop heap.length heap heap.length p).1.set
      (siftupLoop heap.length heap heap.length p).2 (heap.getD p default)) p
    (siftupLoop heap.length heap heap.length p).2
    (by rw [List.length_set, hs.1]; exact hs.2)
  refine h1.trans ?_
  have h2 := siftupLoop_set_perm heap.length heap heap.length p (heap.getD p default)
    hp le_rfl
  rw [list_set_self heap p default] at h2
  exact h2

theorem siftup_length (heap : List State) (p : Nat) (hp : p < heap.length) :
    (siftup heap p).length = heap.length :=
  (siftup_perm heap p hp).length_eq

theorem heappush_perm (heap : List State) (x : State) :
    (heappush heap x).Perm (x :: heap) := by
  have h1 := siftdown_perm (heap ++ [x]) 0 heap.length (by simp)
  exact h1.trans (List.perm_append_singleton x heap)

theorem heappop_perm (heap : List State) (m : State) (rest : List State)
    (h : heappop heap = some (m, rest)) : (m :: rest).Perm heap := by
  unfold heappop at h
  cases hl : heap.getLast? with
  | none => rw [hl] at h; exact absurd h (by simp)
  | some lastelt =>
    rw [hl] at h
    have hdecomp : heap.dropLast ++ [lastelt] = heap :=
      List.dropLast_append_getLast? lastelt hl
    by_cases he : heap.dropLast.isEmpty
    · simp only [he, if_true] at h
      obtain ⟨rfl, rfl⟩ := Prod.mk.injEq .. ▸ (Option.some.injEq .. ▸ h)
      have : heap.dropLast = [] := List.isEmpty_iff.mp he
      rw [this] at hdecomp
      simp [← hdecomp]
    · simp only [he, if_false] at h
      obtain ⟨rfl, rfl⟩ := Prod.mk.injEq .. ▸ (Option.some.injEq .. ▸ h)
      have hne : heap.dropLast ≠ [] := fun hh => he (by simp [hh])
      have hlen : 0 < heap.dropLast.length := List.length_pos.mpr hne
      have h1 := siftup_perm (heap.dropLast.set 0 lastelt) 0 (by simpa using hlen)
      have h2 : (heap.dropLast.getD 0 default ::
          siftup (heap.dropLast.set 0 lastelt) 0).Perm
          (heap.dropLast.getD 0 default :: heap.dropLast.set 0 lastelt) :=
        h1.cons _
      have h3 := pset_perm heap.dropLast 0 lastelt default hlen
      refine (h2.trans h3).trans ?_
      have h4 : (lastelt :: heap.dropLast).Perm (heap.dropLast ++ [lastelt]) :=
        (List.perm_append_singleton lastelt heap.dropLast).symm
      rwa [hdecomp] at h4

theorem heapifyLoop_perm : ∀ (i : Nat) (heap : List State), i ≤ heap.length →
    (heapifyLoop i heap).Perm heap
  | 0, heap, _ => List.Perm.refl _
  | i + 1, heap, h => by
    have hp : i < heap.length := h
    have h1 := siftup_perm heap i hp
    have ih := heapifyLoop_perm i (siftup heap i) (by rw [h1.length_eq]; omega)
    exact ih.trans h1

theorem pyHeapify_perm (heap : List State) : (pyHeapify heap).Perm heap :=
  heapifyLoop_perm (heap.length / 2) heap (Nat.div_le_self _ _)

/-! ## Binary-tree index arithmetic and further list access lemmas. -/

theorem list_getD_append_left {α : Type} : ∀ (l l2 : List α) (j : Nat) (d : α),
    j < l.length → (l ++ l2).getD j d = l.getD j d
  | [], _, j, _, h => absurd h (by simp)
  | _ :: _, _, 0, _, _ => rfl
  | _ :: t, l2, j + 1, d, h => list_getD_append_left t l2 j d (by simpa using h)

theorem list_getD_append_len {α : Type} : ∀ (l : List α) (a d : α),
    (l ++ [a]).getD l.length d = a
  | [], _, _ => rfl
  | _ :: t, a, d => list_getD_append_len t a d

theorem list_getD_dropLast {α : Type} : ∀ (l : List α) (j : Nat) (d : α),
    j + 1 < l.length → l.dropLast.getD j d = l.getD j d
  | [], j, _, h => absurd h (by simp)
  | [_], j, _, h => absurd h (by simp)
  | _ :: b :: t, 0, _, _ => rfl
  | a :: b :: t, j + 1, d, h => by
    have := list_getD_dropLast (b :: t) j d (by simpa using h)
    simpa using this

theorem list_mem_exists_getD {α : Type} (d : α) : ∀ (l : List α) (x : α), x ∈ l →
    ∃ i, i < l.length ∧ l.getD i d = x
  | [], x, h => absurd h (by simp)
  | a :: t, x, h => by
    rcases List.mem_cons.mp h with rfl | ht
    · exact ⟨0, by simp, rfl⟩
    · obtain ⟨i, hi, hg⟩ := list_mem_exists_getD d t x ht
      exact ⟨i + 1, by simpa using hi, hg⟩

theorem Desc.le {r j : Nat} (h : Desc r j) : r ≤ j := by
  induction h with
  | refl => exact le_rfl
  | left i _ ih => omega
  | right i _ ih => omega

theorem Desc.child_left {r j : Nat} (h : Desc r j) : Desc r (2 * j + 1) := by
  induction h with
  | refl i => exact Desc.left i (Desc.refl _)
  | left i _ ih => exact Desc.left i ih
  | right i _ ih => exact Desc.right i ih

theorem Desc.child_right {r j : Nat} (h : Desc r j) : Desc r (2 * j + 2) := by
  induction h with
  | refl i => exact Desc.right i (Desc.refl _)
  | left i _ ih => exact Desc.left i ih
  | right i _ ih => exact Desc.right i ih

theorem desc_zero : ∀ j, Desc 0 j := by
  intro j
  induction j using Nat.strong_induction_on with
  | _ j ih =>
    match j with
    | 0 => exact Desc.refl 0
    | j + 1 =>
      have hp : (j + 1 - 1) / 2 < j + 1 := by omega
      have hd := ih _ hp
      have : j + 1 = 2 * ((j + 1 - 1) / 2) + 1 ∨ j + 1 = 2 * ((j + 1 - 1) / 2) + 2 := by
        omega
      rcases this with h | h
      · rw [h]; exact hd.child_left
      · rw [h]; exact hd.child_right

theorem Desc.parent_desc : ∀ {r j : Nat}, Desc r j → j ≠ r → Desc r ((j - 1) / 2) := by
  intro r j h
  induction h with
  | refl i => intro hne; exact absurd rfl hne
  | left i h ih =>
    rename_i k
    intro _
    by_cases hk : k = 2 * i + 1
    · subst hk
      have he : (2 * i + 1 - 1) / 2 = i := by omega
      rw [he]; exact Desc.refl i
    · exact Desc.left i (ih hk)
  | right i h ih =>
    rename_i k
    intro _
    by_cases hk : k = 2 * i + 2
    · subst hk
      have he : (2 * i + 2 - 1) / 2 = i := by omega
      rw [he]; exact Desc.refl i
    · exact Desc.right i (ih hk)

theorem desc_split {r j : Nat} (h : Desc r j) :
    j = r ∨ Desc (2 * r + 1) j ∨ Desc (2 * r + 2) j := by
  cases h with
  | refl => exact Or.inl rfl
  | left _ h => exact Or.inr (Or.inl h)
  | right _ h => exact Or.inr (Or.inr h)

theorem Desc.trans {a b c : Nat} (h1 : Desc a b) (h2 : Desc b c) : Desc a c := by
  induction h1 with
  | refl => exact h2
  | left i _ ih => exact Desc.left i (ih h2)
  | right i _ ih => exact Desc.right i (ih h2)

theorem desc_anc : ∀ (j a b : Nat), Desc a j → Desc b j → Desc a b ∨ Desc b a := by
  intro j
  induction j using Nat.strong_induction_on with
  | _ j ih =>
    intro a b ha hb
    by_cases hja : j = a
    · subst hja; exact Or.inr hb
    by_cases hjb : j = b
    · subst hjb; exact Or.inl ha
    have hj : 0 < j := by
      have := ha.le
      omega
    have hp : (j - 1) / 2 < j := by omega
    exact ih _ hp a b (ha.parent_desc hja) (hb.parent_desc hjb)

theorem desc_ge_child {r j : Nat} (h : Desc r j) (hlt : r < j) : 2 * r + 1 ≤ j := by
  rcases desc_split h with rfl | h1 | h1
  · omega
  · have := h1.le; omega
  · have := h1.le; omega

theorem heapProp_iff_heapAt_zero (l : List State) : heapProp l ↔ heapAt l 0 := by
  constructor
  · intro h j _ hj hlen
    exact h j hj hlen
  · intro h i hi hlen
    exact h i (desc_zero i) hi hlen

theorem heapAt_of_desc {l : List State} {r k : Nat} (h : heapAt l r) (hd : Desc r k) :
    heapAt l k := by
  intro j hj hkj hlen
  exact h j (hd.trans hj) (lt_of_le_of_lt hd.le hkj) hlen

theorem heapProp_root_le {l : List State} (h : heapProp l) :
    ∀ i, i < l.length → hval l 0 ≤ hval l i := by
  intro i
  induction i using Nat.strong_induction_on with
  | _ i ih =>
    intro hlen
    match i with
    | 0 => exact le_rfl
    | i + 1 =>
      have hp : (i + 1 - 1) / 2 < i + 1 := by omega
      exact le_trans (ih _ hp (lt_trans hp hlen)) (h (i + 1) (by omega) hlen)

theorem hval_set_self (l : List State) (i : Nat) (a : State) (h : i < l.length) :
    hval (l.set i a) i = a.cost := by
  unfold hval
  rw [list_getD_set_self l i a default h]

theorem hval_set_ne (l : List State) (i j : Nat) (a : State) (h : i ≠ j) :
    hval (l.set i a) j = hval l j := by
  unfold hval
  rw [list_getD_set_ne l i j a default h]

/-! ## The heap operations preserve or establish the heap-order invariant. -/

theorem siftdownLoop_order (newitem : State) (s : Nat) :
    ∀ (fuel : Nat) (heap : List State) (p : Nat),
    p ≤ fuel → Desc s p → p < heap.length →
    (∀ j, Desc s j → s < j → j ≠ p → j < heap.length →
        hval (heap.set p newitem) ((j - 1) / 2) ≤ hval (heap.set p newitem) j) →
    (∀ c, c < heap.length → (c = 2 * p + 1 ∨ c = 2 * p + 2) → s < p →
        hval (heap.set p newitem) ((p - 1) / 2) ≤ hval (heap.set p newitem) c) →
    heapAt (siftdownLoop fuel heap newitem s p) s ∧
      (∀ j, ¬ Desc s j →
        (siftdownLoop fuel heap newitem s p).getD j default = heap.getD j default) := by
  intro fuel
  induction fuel with
  | zero =>
    intro heap p hfuel hdesc hp hA hB
    have hps : p = s := le_antisymm (by omega) hdesc.le
    simp only [siftdownLoop]
    constructor
    · intro j hj hsj hlen
      rw [List.length_set] at hlen
      exact hA j hj hsj (by omega) hlen
    · intro j hnd
      have hjp : j ≠ p := fun h => hnd (h ▸ hdesc)
      exact list_getD_set_ne heap p j newitem default (fun h => hjp h.symm)
  | succ fuel ih =>
    intro heap p hfuel hdesc hp hA hB
    simp only [siftdownLoop]
    by_cases hsp : s < p
    · simp only [if_pos hsp]
      set pp := (p - 1) / 2 with hpp
      set parent := heap.getD pp default with hparent
      have hppp : pp < p := by omega
      have hpplen : pp < heap.length := lt_trans hppp hp
      have hppne : pp ≠ p := by omega
      have hdpp : Desc s pp := hdesc.parent_desc (by omega)
      -- value equations
      have e2 : hval ((heap.set p parent).set pp newitem) p = parent.cost := by
        rw [hval_set_ne _ pp p newitem hppne, hval_set_self heap p parent hp]
      have e3 : hval ((heap.set p parent).set pp newitem) pp = newitem.cost := by
        rw [hval_set_self _ pp newitem (by simpa using hpplen)]
      have e1 : ∀ k, k ≠ p → k ≠ pp →
          hval ((heap.set p parent).set pp newitem) k = hval heap k := by
        intro k hk1 hk2
        rw [hval_set_ne _ pp k newitem (fun h => hk2 h.symm),
          hval_set_ne _ p k parent (fun h => hk1 h.symm)]
      have e4 : hval (heap.set p newitem) p = newitem.cost := hval_set_self heap p newitem hp
      have e5 : ∀ k, k ≠ p → hval (heap.set p newitem) k = hval heap k := by
        intro k hk
        rw [hval_set_ne _ p k newitem (fun h => hk h.symm)]
      have e5' : hval (heap.set p newitem) pp = parent.cost := by
        rw [e5 pp hppne]; rfl
      by_cases hlt : newitem.cost < parent.cost
      · simp only [if_pos hlt]
        have hres := ih (heap.set p parent) pp (by omega) hdpp (by simpa using hpplen)
          ?hA2 ?hB2
        case hA2 =>
          intro j hj hsj hjpp hjlen
          rw [List.length_set] at hjlen
          by_cases hjp : j = p
          · subst hjp
            have hppj : (j - 1) / 2 = pp := rfl
            rw [hppj, e3, e2]
            exact le_of_lt hlt
          · by_cases hpj : (j - 1) / 2 = p
            · have hjrange : j = 2 * p + 1 ∨ j = 2 * p + 2 := by omega
              have hjgt : pp < j := by omega
              rw [hpj, e2, e1 j hjp (by omega)]
              have hb := hB j hjlen hjrange hsp
              rw [e5' ] at hb
              rwa [e5 j hjp] at hb
            · by_cases hpj2 : (j - 1) / 2 = pp
              · rw [hpj2, e3, e1 j hjp hjpp]
                have ha := hA j hj hsj hjp hjlen
                rw [hpj2, e5'] at ha
                rw [e5 j hjp] at ha
                exact le_trans (le_of_lt hlt) ha
              · rw [e1 j hjp hjpp, e1 ((j - 1) / 2) hpj hpj2]
                have ha := hA j hj hsj hjp hjlen
                rw [e5 j hjp, e5 ((j - 1) / 2) hpj] at ha
                exact ha
        case hB2 =>
          intro c hclen hcch hspp
          rw [List.length_set] at hclen
          have hgp : (pp - 1) / 2 < pp := by omega
          have hgpp : (pp - 1) / 2 ≠ p := by omega
          have hgppp : (pp - 1) / 2 ≠ pp := by omega
          have hcpp : pp < c := by omega
          have hApp := hA pp hdpp hspp hppne hpplen
          rw [e5 pp hppne] at hApp
          rw [e5 ((pp - 1) / 2) hgpp] at hApp
          by_cases hcp : c = p
          · subst hcp
            rw [e2, e1 ((pp - 1) / 2) hgpp hgppp]
            exact hApp
          · rw [e1 c hcp (by omega), e1 ((pp - 1) / 2) hgpp hgppp]
            have hdc : Desc s c := by
              rcases hcch with h | h
              · rw [h]; exact hdpp.child_left
              · rw [h]; exact hdpp.child_right
            have hac := hA c hdc (by omega) hcp hclen
            have hcpar : (c - 1) / 2 = pp := by omega
            rw [hcpar, e5 pp hppne, e5 c hcp] at hac
            exact le_trans hApp hac
        refine ⟨hres.1, ?_⟩
        intro j hnd
        rw [hres.2 j hnd]
        have hjp : j ≠ p := fun h => hnd (h ▸ hdesc)
        exact list_getD_set_ne heap p j parent default (fun h => hjp h.symm)
      · simp only [if_neg hlt]
        constructor
        · intro j hj hsj hlen
          rw [List.length_set] at hlen
          by_cases hjp : j = p
          · subst hjp
            rw [show (j - 1) / 2 = pp from rfl] at *
            rw [e5', e4]
            exact le_of_not_lt hlt
          · exact hA j hj hsj hjp hlen
        · intro j hnd
          have hjp : j ≠ p := fun h => hnd (h ▸ hdesc)
          exact list_getD_set_ne heap p j newitem default (fun h => hjp h.symm)
    · simp only [if_neg hsp]
      have hps : p = s := le_antisymm (by omega) hdesc.le
      constructor
      · intro j hj hsj hlen
        rw [List.length_set] at hlen
        exact hA j hj hsj (by omega) hlen
      · intro j hnd
        have hjp : j ≠ p := fun h => hnd (h ▸ hdesc)
        exact list_getD_set_ne heap p j newitem default (fun h => hjp h.symm)

theorem heappush_heapProp (heap : List State) (x : State) (h : heapProp heap) :
    heapProp (heappush heap x) := by
  rw [heapProp_iff_heapAt_zero]
  unfold heappush siftdown
  have hlen : heap.length < (heap ++ [x]).length := by simp
  have hx : (heap ++ [x]).getD heap.length default = x := list_getD_append_len heap x default
  have hself : (heap ++ [x]).set heap.length ((heap ++ [x]).getD heap.length default)
      = heap ++ [x] := list_set_self (heap ++ [x]) heap.length default
  have hres := siftdownLoop_order ((heap ++ [x]).getD heap.length default) 0 heap.length
    (heap ++ [x]) heap.length le_rfl (desc_zero _) hlen ?hA ?hB
  case hA =>
    intro j _ hj hjp hjlen
    rw [hself]
    simp only [List.length_append, List.length_singleton] at hjlen
    have hjlt : j < heap.length := by omega
    have hplt : (j - 1) / 2 < heap.length := by omega
    show ((heap ++ [x]).getD ((j - 1) / 2) default).cost ≤ ((heap ++ [x]).getD j default).cost
    rw [list_getD_append_left heap [x] j default hjlt,
      list_getD_append_left heap [x] ((j - 1) / 2) default hplt]
    exact h j hj hjlt
  case hB =>
    intro c hclen hcch _
    simp only [List.length_append, List.length_singleton] at hclen
    omega
  exact hres.1

theorem siftupLoop_order (pos0 : Nat) :
    ∀ (fuel : Nat) (heap : List State) (endpos pos : Nat),
    endpos = heap.length → endpos ≤ fuel + pos → pos < endpos → Desc pos0 pos →
    (∀ j, Desc pos0 j → pos0 < j → j ≠ pos → (j - 1) / 2 ≠ pos → j < endpos →
        hval heap ((j - 1) / 2) ≤ hval heap j) →
    (∀ c, c < endpos → (c = 2 * pos + 1 ∨ c = 2 * pos + 2) → pos0 < pos →
        hval heap ((pos - 1) / 2) ≤ hval heap c) →
    Desc pos0 (siftupLoop fuel heap endpos pos).2 ∧
    (siftupLoop fuel heap endpos pos).2 < endpos ∧
    (siftupLoop fuel heap endpos pos).1.length = heap.length ∧
    (∀ j, Desc pos0 j → pos0 < j → j ≠ (siftupLoop fuel heap endpos pos).2 →
        (j - 1) / 2 ≠ (siftupLoop fuel heap endpos pos).2 → j < endpos →
        hval (siftupLoop fuel heap endpos pos).1 ((j - 1) / 2) ≤
          hval (siftupLoop fuel heap endpos pos).1 j) ∧
    (¬ 2 * (siftupLoop fuel heap endpos pos).2 + 1 < endpos) ∧
    (∀ j, ¬ Desc pos0 j →
        (siftupLoop fuel heap endpos pos).1.getD j default = heap.getD j default) := by
  intro fuel
  induction fuel with
  | zero =>
    intro heap endpos pos hend hfuel hpos
    omega
  | succ fuel ih =>
    intro heap endpos pos hend hfuel hpos hdesc hJ2 hJ3
    simp only [siftupLoop]
    by_cases hc : 2 * pos + 1 < endpos
    · simp only [if_pos hc]
      have hposlen : pos < heap.length := hend ▸ hpos
      have key : ∀ ch : Nat, (ch = 2 * pos + 1 ∨ ch = 2 * pos + 2) → ch < endpos →
          (∀ sb : Nat, (sb = 2 * pos + 1 ∨ sb = 2 * pos + 2) → sb < endpos →
            hval heap ch ≤ hval heap sb) →
          Desc pos0 (siftupLoop fuel (heap.set pos (heap.getD ch default)) endpos ch).2 ∧
          (siftupLoop fuel (heap.set pos (heap.getD ch default)) endpos ch).2 < endpos ∧
          (siftupLoop fuel (heap.set pos (heap.getD ch default)) endpos ch).1.length
            = heap.length ∧
          (∀ j, Desc pos0 j → pos0 < j →
            j ≠ (siftupLoop fuel (heap.set pos (heap.getD ch default)) endpos ch).2 →
            (j - 1) / 2 ≠ (siftupLoop fuel (heap.set pos (heap.getD ch default)) endpos ch).2 →
            j < endpos →
            hval (siftupLoop fuel (heap.set pos (heap.getD ch default)) endpos ch).1
              ((j - 1) / 2) ≤
            hval (siftupLoop fuel (heap.set pos (heap.getD ch default)) endpos ch).1 j) ∧
          (¬ 2 * (siftupLoop fuel (heap.set pos (heap.getD ch default)) endpos ch).2 + 1
            < endpos) ∧
          (∀ j, ¬ Desc pos0 j →
            (siftupLoop fuel (heap.set pos (heap.getD ch default)) endpos ch).1.getD j default
              = heap.getD j default) := by
        intro ch hch hchend hmin
        have hchlen : ch < heap.length := hend ▸ hchend
        have hchpos : pos < ch := by omega
        have hdch : Desc pos0 ch := by
          rcases hch with h | h
          · rw [h]; exact hdesc.child_left
          · rw [h]; exact hdesc.child_right
        have epos : hval (heap.set pos (heap.getD ch default)) pos
            = hval heap ch := hval_set_self heap pos _ hposlen
        have eother : ∀ k, k ≠ pos →
            hval (heap.set pos (heap.getD ch default)) k = hval heap k := by
          intro k hk
          exact hval_set_ne heap pos k _ (fun h => hk h.symm)
        have hres := ih (heap.set pos (heap.getD ch default)) endpos ch
          (by rw [hend, List.length_set]) (by omega) hchend hdch ?hJ2c ?hJ3c
        case hJ2c =>
          intro j hj hpj hjch hjpch hjend
          by_cases hjpos : j = pos
          · subst hjpos
            have hjpar : (j - 1) / 2 ≠ j := by omega
            rw [eother _ hjpar, epos]
            exact le_trans (hJ3 ch hchend hch (by omega)) (le_refl _)
          · by_cases hjparpos : (j - 1) / 2 = pos
            · have hjsib : j = 2 * pos + 1 ∨ j = 2 * pos + 2 := by omega
              rw [hjparpos, epos, eother j hjpos]
              exact hmin j hjsib hjend
            · rw [eother j hjpos, eother _ hjparpos]
              exact hJ2 j hj hpj hjpos hjparpos hjend
        case hJ3c =>
          intro c hcend hcc hposc
          have hchpar : (ch - 1) / 2 = pos := by omega
          have hcne : c ≠ pos := by omega
          have hcpar : (c - 1) / 2 = ch := by omega
          have hdc : Desc pos0 c := by
            rcases hcc with h | h
            · rw [h]; exact hdch.child_left
            · rw [h]; exact hdch.child_right
          rw [hchpar, epos, eother c hcne]
          have := hJ2 c hdc (by omega) hcne (by omega) hcend
          rwa [hcpar] at this
        refine ⟨hres.1, hres.2.1, by rw [hres.2.2.1, List.length_set], hres.2.2.2.1,
          hres.2.2.2.2.1, ?_⟩
        intro j hnd
        rw [hres.2.2.2.2.2 j hnd]
        have hjpos : j ≠ pos := fun h => hnd (h ▸ hdesc)
        exact list_getD_set_ne heap pos j _ default (fun h => hjpos h.symm)
      by_cases hsel : 2 * pos + 1 + 1 < endpos ∧
          ¬ (heap.getD (2 * pos + 1) default).cost < (heap.getD (2 * pos + 1 + 1) default).cost
      · simp only [if_pos hsel]
        refine key (2 * pos + 1 + 1) (by omega) hsel.1 ?_
        intro sb hsb hsbend
        rcases hsb with h | h
        · subst h
          show hval heap (2 * pos + 1 + 1) ≤ hval heap (2 * pos + 1)
          exact le_of_not_lt hsel.2
        · subst h
          exact le_refl _
      · simp only [if_neg hsel]
        refine key (2 * pos + 1) (Or.inl rfl) hc ?_
        intro sb hsb hsbend
        rcases hsb with h | h
        · subst h; exact le_refl _
        · subst h
          rcases not_and_or.mp hsel with h2 | h2
          · omega
          · exact le_of_lt (not_not.mp h2)
    · simp only [if_neg hc]
      exact ⟨hdesc, hpos, trivial,
        fun j hj hpj hjp hjpp hjend => hJ2 j hj hpj hjp hjpp hjend, hc, fun j _ => trivial⟩

theorem siftup_order (heap : List State) (pos : Nat) (hp : pos < heap.length)
    (hsub : ∀ j, Desc pos j → pos < j → (j - 1) / 2 ≠ pos → j < heap.length →
        hval heap ((j - 1) / 2) ≤ hval heap j) :
    heapAt (siftup heap pos) pos ∧ (siftup heap pos).length = heap.length ∧
      (∀ j, ¬ Desc pos j → (siftup heap pos).getD j default = heap.getD j default) := by
  unfold siftup
  have hloop := siftupLoop_order pos heap.length heap heap.length pos rfl
    (by omega) hp (Desc.refl pos)
    (fun j hj hpj hjp hjpp hjend => hsub j hj hpj hjpp hjend)
    (fun c hc hcc hpp => absurd hpp (by omega))
  set res := siftupLoop heap.length heap heap.length pos with hres
  obtain ⟨hd2, hlt2, hlenr, hS3, hnoch, hframe⟩ := hloop
  set newitem := heap.getD pos default with hnew
  set l := res.1.set res.2 newitem with hl
  have hllen : l.length = heap.length := by rw [hl, List.length_set, hlenr]
  have hgd : l.getD res.2 default = newitem :=
    list_getD_set_self res.1 res.2 newitem default (by omega)
  have hsetset : l.set res.2 (l.getD res.2 default) = l := list_set_self l res.2 default
  have hbub := siftdownLoop_order (l.getD res.2 default) pos res.2 l res.2 le_rfl hd2
    (by omega) ?hA ?hB
  case hA =>
    intro j hj hpj hjne hjlen
    rw [hsetset]
    rw [hllen] at hjlen
    have hjpne : (j - 1) / 2 ≠ res.2 := by
      intro hpar
      have : j = 2 * res.2 + 1 ∨ j = 2 * res.2 + 2 := by omega
      omega
    have e1 : hval l j = hval res.1 j := hval_set_ne res.1 res.2 j newitem
      (fun h => hjne h.symm)
    have e2 : hval l ((j - 1) / 2) = hval res.1 ((j - 1) / 2) :=
      hval_set_ne res.1 res.2 ((j - 1) / 2) newitem (fun h => hjpne h.symm)
    rw [e1, e2]
    exact hS3 j hj hpj hjne hjpne hjlen
  case hB =>
    intro c hclen hcch _
    rw [hllen] at hclen
    omega
  refine ⟨hbub.1, ?_, ?_⟩
  · show (siftdownLoop res.2 l (l.getD res.2 default) pos res.2).length = heap.length
    rw [siftdownLoop_length]
    exact hllen
  · intro j hnd
    show (siftdownLoop res.2 l (l.getD res.2 default) pos res.2).getD j default
      = heap.getD j default
    rw [hbub.2 j hnd]
    have hjne : j ≠ res.2 := fun h => hnd (h ▸ hd2)
    rw [hl, list_getD_set_ne res.1 res.2 j newitem default (fun h => hjne h.symm)]
    exact hframe j hnd

theorem heapProp_nil : heapProp [] := by
  intro i hi hlen
  simp at hlen

theorem heappop_order (heap : List State) (m : State) (rest : List State)
    (hp : heapProp heap) (h : heappop heap = some (m, rest)) :
    heapProp rest ∧ (∀ x ∈ heap, m.cost ≤ x.cost) := by
  unfold heappop at h
  cases hl : heap.getLast? with
  | none => rw [hl] at h; exact absurd h (by simp)
  | some lastelt =>
    rw [hl] at h
    have hdecomp : heap.dropLast ++ [lastelt] = heap :=
      List.dropLast_append_getLast? lastelt hl
    by_cases he : heap.dropLast.isEmpty
    · simp only [he, if_true] at h
      obtain ⟨rfl, rfl⟩ := Prod.mk.injEq .. ▸ (Option.some.injEq .. ▸ h)
      have hnil : heap.dropLast = [] := List.isEmpty_iff.mp he
      rw [hnil] at hdecomp
      refine ⟨heapProp_nil, ?_⟩
      intro x hx
      rw [← hdecomp] at hx
      simp at hx
      rw [hx]
    · simp only [he, if_false] at h
      obtain ⟨rfl, rfl⟩ := Prod.mk.injEq .. ▸ (Option.some.injEq .. ▸ h)
      have hne : heap.dropLast ≠ [] := fun hh => he (by simp [hh])
      have hlen0 : 0 < heap.dropLast.length := List.length_pos.mpr hne
      have hlend : heap.dropLast.length + 1 = heap.length := by
        rw [← hdecomp]; simp
      have hmin : ∀ i, i < heap.length → hval heap 0 ≤ hval heap i :=
        heapProp_root_le hp
      have hm0 : heap.dropLast.getD 0 default = heap.getD 0 default :=
        list_getD_dropLast heap 0 default (by omega)
      -- the returned element is the root, hence minimal
      have hmincost : ∀ x ∈ heap, (heap.dropLast.getD 0 default).cost ≤ x.cost := by
        intro x hx
        obtain ⟨i, hi, hgi⟩ := list_mem_exists_getD default heap x hx
        rw [hm0]
        have := hmin i hi
        rw [show hval heap i = (heap.getD i default).cost from rfl, hgi] at this
        exact this
      refine ⟨?_, hmincost⟩
      -- rest = siftup (dropLast.set 0 lastelt) 0 is again a heap
      rw [heapProp_iff_heapAt_zero]
      have hsu := siftup_order (heap.dropLast.set 0 lastelt) 0 (by simpa using hlen0) ?hsub
      case hsub =>
        intro j hj h0j hjp hjlen
        rw [List.length_set] at hjlen
        have hjne : j ≠ 0 := by omega
        have hjpne : (j - 1) / 2 ≠ 0 := hjp
        have e1 : hval (heap.dropLast.set 0 lastelt) j = hval heap.dropLast j :=
          hval_set_ne heap.dropLast 0 j lastelt (fun hh => hjne hh.symm)
        have e2 : hval (heap.dropLast.set 0 lastelt) ((j - 1) / 2)
            = hval heap.dropLast ((j - 1) / 2) :=
          hval_set_ne heap.dropLast 0 ((j - 1) / 2) lastelt (fun hh => hjpne hh.symm)
        rw [e1, e2]
        have e3 : hval heap.dropLast j = hval heap j := by
          show (heap.dropLast.getD j default).cost = (heap.getD j default).cost
          rw [list_getD_dropLast heap j default (by omega)]
        have e4 : hval heap.dropLast ((j - 1) / 2) = hval heap ((j - 1) / 2) := by
          show (heap.dropLast.getD _ default).cost = (heap.getD _ default).cost
          rw [list_getD_dropLast heap ((j - 1) / 2) default (by omega)]
        rw [e3, e4]
        exact hp j (by omega) (by omega)
      exact hsu.1

theorem heapifyLoop_order : ∀ (i : Nat) (heap : List State), 2 * i ≤ heap.length →
    (∀ k, i ≤ k → heapAt heap k) → heapAt (heapifyLoop i heap) 0
  | 0, heap, _, hinv => hinv 0 le_rfl
  | i + 1, heap, hle, hinv => by
    show heapAt (heapifyLoop i (siftup heap i)) 0
    have hilen : i < heap.length := by omega
    have hsu := siftup_order heap i hilen ?hsub
    case hsub =>
      intro j hj hij hjp hjlen
      rcases desc_split hj with rfl | hd | hd
      · omega
      · rcases desc_split hd with rfl | hd2 | hd2
        · exact absurd (by omega : (2 * i + 1 - 1) / 2 = i) hjp
        · have hcl : (2 * i + 1) < j := by
            have := hd2.le; omega
          exact hinv (2 * i + 1) (by omega) j hd hcl hjlen
        · have hcl : (2 * i + 1) < j := by
            have := hd2.le; omega
          exact hinv (2 * i + 1) (by omega) j hd hcl hjlen
      · rcases desc_split hd with rfl | hd2 | hd2
        · exact absurd (by omega : (2 * i + 2 - 1) / 2 = i) hjp
        · have hcl : (2 * i + 2) < j := by
            have := hd2.le; omega
          exact hinv (2 * i + 2) (by omega) j hd hcl hjlen
        · have hcl : (2 * i + 2) < j := by
            have := hd2.le; omega
          exact hinv (2 * i + 2) (by omega) j hd hcl hjlen
    refine heapifyLoop_order i (siftup heap i) (by rw [hsu.2.1]; omega) ?_
    intro k hk
    by_cases hki : k = i
    · subst hki; exact hsu.1
    · by_cases hdk : Desc i k
      · exact heapAt_of_desc hsu.1 hdk
      · intro j hj hkj hjlen
        rw [hsu.2.1] at hjlen
        have hndj : ¬ Desc i j := by
          intro hij
          rcases desc_anc j i k hij hj with hik | hki2
          · exact hdk hik
          · have := hki2.le; omega
        have hndp : ¬ Desc i ((j - 1) / 2) := by
          intro hip
          have hkp : Desc k ((j - 1) / 2) := hj.parent_desc (by omega)
          rcases desc_anc ((j - 1) / 2) i k hip hkp with hik | hki2
          · exact hdk hik
          · have := hki2.le; omega
        have e1 : hval (siftup heap i) j = hval heap j := by
          unfold hval
          rw [hsu.2.2 j hndj]
        have e2 : hval (siftup heap i) ((j - 1) / 2) = hval heap ((j - 1) / 2) := by
          unfold hval
          rw [hsu.2.2 _ hndp]
        rw [e1, e2]
        exact hinv k (by omega) j hj hkj hjlen

theorem pyHeapify_heapProp (heap : List State) : heapProp (pyHeapify heap) := by
  rw [heapProp_iff_heapAt_zero]
  unfold pyHeapify
  refine heapifyLoop_order (heap.length / 2) heap (by omega) ?_
  intro k hk j hj hkj hjlen
  have := desc_ge_child hj hkj
  omega

/-! ## Search-level helper lemmas. -/

theorem State.eqb_iff (a b : State) : a.eqb b = true ↔ a.x = b.x ∧ a.y = b.y := by
  simp [State.eqb]

theorem State.eqb_self_of_pos (a b : State) (hx : a.x = b.x) (hy : a.y = b.y) :
    a.eqb b = true := by
  simp [State.eqb, hx, hy]

/-- The canonical key `y * w + x` is injective on states whose `x` lies in
`[0, w)`. -/
theorem state_hash_inj (w : Int) (s1 s2 : State)
    (h1 : 0 ≤ s1.x) (h2 : s1.x < w) (h3 : 0 ≤ s2.x) (h4 : s2.x < w)
    (heq : s1.state_hash w = s2.state_hash w) : s1.x = s2.x ∧ s1.y = s2.y := by
  unfold State.state_hash at heq
  have hd : (s1.y - s2.y) * w = s2.x - s1.x := by ring_nf; linarith
  have hw : 0 < w := lt_of_le_of_lt h1 h2
  have hy : s1.y = s2.y := by
    rcases lt_trichotomy s1.y s2.y with hlt | he | hgt
    · exfalso
      have h5 : s1.y - s2.y ≤ -1 := by omega
      have h6 : (s1.y - s2.y) * w ≤ -1 * w := by
        exact mul_le_mul_of_nonneg_right h5 (le_of_lt hw)
      omega
    · exact he
    · exfalso
      have h5 : 1 ≤ s1.y - s2.y := by omega
      have h6 : 1 * w ≤ (s1.y - s2.y) * w := by
        exact mul_le_mul_of_nonneg_right h5 (le_of_lt hw)
      omega
  constructor
  · rw [hy] at heq; omega
  · exact hy

theorem heappush_nil (s : State) : heappush [] s = [s] := by
  unfold heappush siftdown
  simp [siftdownLoop]

theorem heappop_singleton (s : State) : heappop [s] = some (s, []) := by
  unfold heappop
  simp

/-- A `Dijkstra.search` call on a freshly constructed pair with equal
coordinates returns `(0, 1)` no matter what the map does. -/
theorem dijkstra_search_self (succ : State → List State) (w : Int) (fuel : Nat)
    (x y : Int) :
    Dijkstra.search succ w (fuel + 1) (State.init x y) (State.init x y)
      = some (.ok (0, 1)) := by
  unfold Dijkstra.search
  rw [heappush_nil]
  simp only [Dijkstra.run, heappop_singleton]
  rw [State.eqb_self_of_pos _ _ rfl rfl]
  simp only [if_true]
  rw [PyDict.find_store_self]
  rfl

/-- An `AStar.search` call on a freshly constructed pair with equal
coordinates returns `(0, 1)` no matter what the map does. -/
theorem astar_search_self (succ : State → List State) (w : Int) (fuel : Nat)
    (x y : Int) :
    AStar.search succ w (fuel + 1) (State.init x y) (State.init x y)
      = some (.ok (0, 1)) := by
  unfold AStar.search
  rw [heappush_nil]
  simp only [AStar.run, heappop_singleton]
  rw [State.eqb_self_of_pos _ _ rfl rfl]
  rfl

/-! ## The claims. -/

/-- C1: the claim asserts that on every contract-satisfying map Dijkstra and
A* return the same, minimal, cost for every reachable pair.  The code violates
it: on the concrete 6 × 4 grid map `cexSucc` (cardinal cost 1, diagonal 3/2,
obstacles (3,1), (4,3), (2,3)), with start (0,0) and goal (5,3), `Dijkstra.search`
returns cost 15/2 while `AStar.search` returns 7, and the explicit path
`cexPath` from start to goal has cost 7 < 15/2, so Dijkstra's result is not
the minimum.  The cause is the improving-relaxation branch, which updates
CLOSED but never pushes the improved successor. -/
theorem claim_C1 :
    Dijkstra.search cexSucc 6 300 cexStart cexGoal = some (.ok (15 / 2, 21)) ∧
    AStar.search cexSucc 6 300 cexStart cexGoal = some (.ok (7, 14)) ∧
    gridPathCost 6 4 cexObst cexPath = some 7 ∧
    cexPath.head? = some (cexStart.x, cexStart.y) ∧
    cexPath.getLast? = some (cexGoal.x, cexGoal.y) ∧
    (7 : Rat) < 15 / 2 := by
  refine ⟨?_, ?_, ?_, ?_, ?_, ?_⟩
  · with_unfolding_all rfl
  · with_unfolding_all rfl
  · with_unfolding_all rfl
  · with_unfolding_all rfl
  · with_unfolding_all rfl
  · with_unfolding_all decide

/-- C3: for every map and every freshly constructed start and goal with the
same coordinates, both algorithms return cost 0 and expansion count 1
(for any positive fuel, i.e. as soon as the loop may run at all). -/
theorem claim_C3 (succ : State → List State) (w : Int) (fuel : Nat) (x y : Int) :
    Dijkstra.search succ w (fuel + 1) (State.init x y) (State.init x y)
      = some (.ok (0, 1)) ∧
    AStar.search succ w (fuel + 1) (State.init x y) (State.init x y)
      = some (.ok (0, 1)) :=
  ⟨dijkstra_search_self succ w fuel x y, astar_search_self succ w fuel x y⟩

/-- C4: `AStar.h_value` computes `max(dx, dy) + 0.5 * min(dx, dy)` for
`dx = |s.x - goal.x|`, `dy = |s.y - goal.y|`; it is non-negative, and zero
whenever `s` has the goal's coordinates. -/
theorem claim_C4 (goal s : State) :
    AStar.h_value goal s
      = ((max |s.x - goal.x| |s.y - goal.y| : Int) : Rat)
        + 1 / 2 * ((min |s.x - goal.x| |s.y - goal.y| : Int) : Rat) ∧
    0 ≤ AStar.h_value goal s ∧
    (s.x = goal.x → s.y = goal.y → AStar.h_value goal s = 0) := by
  refine ⟨rfl, ?_, ?_⟩
  · unfold AStar.h_value
    have hx : (0 : Int) ≤ |s.x - goal.x| := abs_nonneg _
    have hy : (0 : Int) ≤ |s.y - goal.y| := abs_nonneg _
    have h1 : (0 : Rat) ≤ ((max |s.x - goal.x| |s.y - goal.y| : Int) : Rat) := by
      exact_mod_cast le_max_of_le_left hx
    have h2 : (0 : Rat) ≤ ((min |s.x - goal.x| |s.y - goal.y| : Int) : Rat) := by
      exact_mod_cast le_min hx hy
    nlinarith
  · intro hx hy
    unfold AStar.h_value
    rw [hx, hy]
    simp

/-- C4 witness: at goal = (2,3) and a state on the same cell the heuristic is
zero. -/
theorem claim_C4_witness :
    AStar.h_value (State.init 2 3) (State.mk 2 3 9 9 9) = 0 :=
  (claim_C4 (State.init 2 3) (State.mk 2 3 9 9 9)).2.2 rfl rfl

/-- C5: two states with the same coordinates are `__eq__`-equal and share the
canonical key whatever their g/h/cost fields are, and two states differing in
x or y are never `__eq__`-equal. -/
theorem claim_C5 (x y : Int) (g1 h1 c1 g2 h2 c2 : Rat) (w : Int) :
    (State.mk x y g1 h1 c1).eqb (State.mk x y g2 h2 c2) = true ∧
    (State.mk x y g1 h1 c1).state_hash w = (State.mk x y g2 h2 c2).state_hash w ∧
    (∀ s1 s2 : State, (s1.x ≠ s2.x ∨ s1.y ≠ s2.y) → s1.eqb s2 = false) := by
  refine ⟨by simp [State.eqb], rfl, ?_⟩
  intro s1 s2 hne
  rcases hne with hne | hne <;> simp [State.eqb, hne]

/-- C5 witness: concrete states with equal coordinates but different cost
fields are equal and share the key; states differing in x are not equal. -/
theorem claim_C5_witness :
    (State.mk 1 2 0 0 0).eqb (State.mk 1 2 5 6 7) = true ∧
    (State.mk 1 2 0 0 0).eqb (State.mk 3 2 0 0 0) = false :=
  ⟨(claim_C5 1 2 0 0 0 5 6 7 9).1,
    (claim_C5 1 2 0 0 0 5 6 7 9).2.2 (State.mk 1 2 0 0 0) (State.mk 3 2 0 0 0)
      (Or.inl (by decide))⟩

/-- C6 counterexample: the claim as stated (the key is a perfect hash for
every two states with distinct positions) is false: with `map_width = 5` the
distinct positions (5,0) and (0,1) share the key 5. -/
theorem claim_C6_counterexample :
    (State.init 5 0).eqb (State.init 0 1) = false ∧
    (State.init 5 0).state_hash 5 = (State.init 0 1).state_hash 5 := by
  constructor
  · decide
  · decide

/-- C6 (amended): the canonical key `y * map_width + x` is a perfect hash for
states whose x-coordinate lies inside the grid width: two such states with
distinct positions have distinct keys. -/
theorem claim_C6 (w : Int) (s1 s2 : State)
    (h1 : 0 ≤ s1.x) (h2 : s1.x < w) (h3 : 0 ≤ s2.x) (h4 : s2.x < w)
    (hne : s1.eqb s2 = false) :
    s1.state_hash w ≠ s2.state_hash w := by
  intro heq
  obtain ⟨hx, hy⟩ := state_hash_inj w s1 s2 h1 h2 h3 h4 heq
  rw [State.eqb_self_of_pos s1 s2 hx hy] at hne
  cases hne

/-- C6 witness: in-bound states (1,0) and (2,0) on a width-5 grid have
distinct keys. -/
theorem claim_C6_witness :
    (State.init 1 0).state_hash 5 ≠ (State.init 2 0).state_hash 5 :=
  claim_C6 5 (State.init 1 0) (State.init 2 0) (by decide) (by decide)
    (by decide) (by decide) (by decide)

/-- C7: whenever the state popped by Dijkstra's loop equals the goal, the
returned cost is the value CLOSED records under the goal's canonical key
(whatever the popped instance's own cost field holds), and the returned
expansion count includes this final pop. -/
theorem claim_C7 (succ : State → List State) (w : Int) (goal : State)
    (fuel : Nat) (op : List State) (closed : List (Int × Rat)) (nexp : Nat)
    (node : State) (rest : List State) (c : Rat)
    (hpop : heappop op = some (node, rest)) (hgoal : node.eqb goal = true)
    (hfind : PyDict.find closed (node.state_hash w) = some c) :
    (Dijkstra.run succ w goal (fuel + 1) op closed nexp).1
      = some (.ok (c, nexp + 1)) := by
  simp only [Dijkstra.run, hpop, hgoal, if_true, hfind]

/-- C7 witness: the popped instance carries cost 99, CLOSED records 7 for its
key; the call returns the CLOSED value 7 (with the pop counted). -/
theorem claim_C7_witness :
    (Dijkstra.run (fun _ => []) 1 (State.init 0 0) 1
        [State.mk 0 0 5 0 99] [(0, 7)] 0).1 = some (.ok (7, 1)) :=
  claim_C7 (fun _ => []) 1 (State.init 0 0) 0 [State.mk 0 0 5 0 99] [(0, 7)] 0
    (State.mk 0 0 5 0 99) [] 7 (by with_unfolding_all rfl) (by decide)
    (by with_unfolding_all rfl)

/-- C9: calling `search` on the abstract `Search` base class raises
`NotImplementedError` for every input and never yields a (cost, expansions)
pair. -/
theorem claim_C9 (start goal : State) :
    Search.search start goal = .error .notImplementedError ∧
    ∀ p : Rat × Nat, Search.search start goal ≠ .ok p :=
  ⟨rfl, fun p h => by cases h⟩

/-- C9 witness: at a concrete input the base `search` yields the
`NotImplementedError` signal and not the pair (0, 0). -/
theorem claim_C9_witness :
    Search.search (State.init 0 0) (State.init 1 1) = .error .notImplementedError ∧
    Search.search (State.init 0 0) (State.init 1 1) ≠ .ok (0, 0) :=
  ⟨(claim_C9 (State.init 0 0) (State.init 1 1)).1,
    (claim_C9 (State.init 0 0) (State.init 1 1)).2 (0, 0)⟩

/-- C10: Dijkstra's improving-relaxation branch (successor key present in
CLOSED with a strictly smaller new g) pushes nothing: OPEN is exactly
re-heapified (hence the same multiset of states, same size), and the only
CLOSED change is lowering the value recorded under the successor's key. -/
theorem claim_C10 (w : Int) (op : List State) (closed : List (Int × Rat))
    (nP : State) (v : Rat)
    (hfind : PyDict.find closed (nP.state_hash w) = some v) (hlt : nP.g < v) :
    (Dijkstra.succStep w (op, closed) nP).1 = pyHeapify op ∧
    ((Dijkstra.succStep w (op, closed) nP).1).Perm op ∧
    (Dijkstra.succStep w (op, closed) nP).1.length = op.length ∧
    PyDict.find (Dijkstra.succStep w (op, closed) nP).2 (nP.state_hash w)
      = some nP.g ∧
    (∀ k, k ≠ nP.state_hash w →
      PyDict.find (Dijkstra.succStep w (op, closed) nP).2 k = PyDict.find closed k) := by
  have hstep : Dijkstra.succStep w (op, closed) nP
      = (pyHeapify op, PyDict.store closed (nP.state_hash w) nP.g) := by
    unfold Dijkstra.succStep
    simp only [hfind, hlt, if_true]
  rw [hstep]
  exact ⟨rfl, pyHeapify_perm op, (pyHeapify_perm op).length_eq,
    PyDict.find_store_self closed (nP.state_hash w) nP.g,
    fun k hk => PyDict.find_store_ne closed (nP.state_hash w) k nP.g
      (fun h => hk h.symm)⟩

/-- C10 witness: a concrete improving relaxation (key 0 recorded at 5,
successor g = 3) re-heapifies the singleton OPEN unchanged and lowers only
the recorded value. -/
theorem claim_C10_witness :
    (Dijkstra.succStep 1 ([State.mk 0 0 5 0 5], [(0, 5)]) (State.mk 0 0 3 0 0)).1
      = [State.mk 0 0 5 0 5] ∧
    PyDict.find
      (Dijkstra.succStep 1 ([State.mk 0 0 5 0 5], [(0, 5)]) (State.mk 0 0 3 0 0)).2 0
      = some 3 := by
  have h := claim_C10 1 [State.mk 0 0 5 0 5] [(0, 5)] (State.mk 0 0 3 0 0) 5
    (by with_unfolding_all rfl) (by with_unfolding_all decide)
  refine ⟨?_, ?_⟩
  · rw [h.1]
    with_unfolding_all rfl
  · have h4 := h.2.2.2.1
    have he : (State.mk 0 0 3 0 0).state_hash 1 = 0 := by decide
    rw [he] at h4
    have hg : (State.mk 0 0 3 0 0).g = 3 := rfl
    rw [hg] at h4
    exact h4

/-! ## Monotonicity of Dijkstra's pop sequence. -/

theorem heapProp_singleton (s : State) : heapProp [s] := by
  intro i hi hlen
  simp at hlen
  omega

/-- One `Dijkstra.succStep` keeps OPEN a heap whose entries all have
`cost = g` and `cost ≥ lb`, provided the successor's g is at least `lb`. -/
theorem dijkstra_succStep_inv (w : Int) (lb : Rat) (acc : List State × List (Int × Rat))
    (nP : State) (hlb : lb ≤ nP.g)
    (hheap : heapProp acc.1) (hmem : ∀ s ∈ acc.1, lb ≤ s.cost ∧ s.cost = s.g) :
    heapProp (Dijkstra.succStep w acc nP).1 ∧
      ∀ s ∈ (Dijkstra.succStep w acc nP).1, lb ≤ s.cost ∧ s.cost = s.g := by
  unfold Dijkstra.succStep
  cases hfind : PyDict.find acc.2 (nP.state_hash w) with
  | none =>
    simp only
    constructor
    · exact heappush_heapProp acc.1 _ hheap
    · intro s hs
      have hs2 : s ∈ ({ nP with cost := nP.g } : State) :: acc.1 :=
        (heappush_perm acc.1 _).mem_iff.mp hs
      rcases List.mem_cons.mp hs2 with rfl | hs3
      · exact ⟨hlb, rfl⟩
      · exact hmem s hs3
  | some v =>
    by_cases hlt : nP.g < v
    · simp only [hlt, if_true]
      constructor
      · exact pyHeapify_heapProp acc.1
      · intro s hs
        exact hmem s ((pyHeapify_perm acc.1).mem_iff.mp hs)
    · simp only [hlt, if_false]
      exact ⟨hheap, hmem⟩

theorem dijkstra_foldl_inv (w : Int) (lb : Rat) :
    ∀ (l : List State) (acc : List State × List (Int × Rat)),
    (∀ nP ∈ l, lb ≤ nP.g) → heapProp acc.1 →
    (∀ s ∈ acc.1, lb ≤ s.cost ∧ s.cost = s.g) →
    heapProp (l.foldl (Dijkstra.succStep w) acc).1 ∧
      ∀ s ∈ (l.foldl (Dijkstra.succStep w) acc).1, lb ≤ s.cost ∧ s.cost = s.g
  | [], acc, _, hheap, hmem => ⟨hheap, hmem⟩
  | nP :: t, acc, hl, hheap, hmem => by
    have hstep := dijkstra_succStep_inv w lb acc nP (hl nP (by simp)) hheap hmem
    exact dijkstra_foldl_inv w lb t (Dijkstra.succStep w acc nP)
      (fun x hx => hl x (by simp [hx])) hstep.1 hstep.2

/-- The pop trace of Dijkstra's loop is bounded below by `lb` and sorted,
whenever OPEN is a heap of `cost = g ≥ lb` entries and the map collaborator
stamps successors with g-values at least the parent's. -/
theorem dijkstra_trace_sorted (succ : State → List State) (w : Int) (goal : State)
    (hmono : ∀ s n', n' ∈ succ s → s.g ≤ n'.g) :
    ∀ (fuel : Nat) (op : List State) (closed : List (Int × Rat)) (nexp : Nat) (lb : Rat),
    heapProp op → (∀ s ∈ op, lb ≤ s.cost ∧ s.cost = s.g) →
    (∀ c ∈ (Dijkstra.run succ w goal fuel op closed nexp).2, lb ≤ c) ∧
      List.Sorted (· ≤ ·) (Dijkstra.run succ w goal fuel op closed nexp).2
  | 0, op, closed, nexp, lb, _, _ => by
    simp [Dijkstra.run]
  | fuel + 1, op, closed, nexp, lb, hheap, hmem => by
    cases hpop : heappop op with
    | none =>
      simp [Dijkstra.run, hpop]
    | some pr =>
      obtain ⟨node, rest⟩ := pr
      have hperm := heappop_perm op node rest hpop
      have hnode : node ∈ op := hperm.mem_iff.mp (by simp)
      have hnodeb := hmem node hnode
      have horder := heappop_order op node rest hheap hpop
      by_cases hgoal : node.eqb goal = true
      · have htr : (Dijkstra.run succ w goal (fuel + 1) op closed nexp).2 = [node.cost] := by
          simp only [Dijkstra.run, hpop, hgoal, if_true]
          cases hfind : PyDict.find closed (node.state_hash w) <;> simp
        rw [htr]
        constructor
        · intro c hc
          simp at hc
          rw [hc]
          exact hnodeb.1
        · simp
      · have hgoal2 : node.eqb goal = false := by
          cases h : node.eqb goal
          · rfl
          · exact absurd h hgoal
        have hrest : ∀ s ∈ rest, node.cost ≤ s.cost ∧ s.cost = s.g := by
          intro s hs
          have hsop : s ∈ op := hperm.mem_iff.mp (by simp [hs])
          exact ⟨horder.2 s hsop, (hmem s hsop).2⟩
        have hfold := dijkstra_foldl_inv w node.cost (succ node) (rest, closed)
          (fun nP hnP => hnodeb.2 ▸ hmono node nP hnP) horder.1 hrest
        have ih := dijkstra_trace_sorted succ w goal hmono fuel
          ((succ node).foldl (Dijkstra.succStep w) (rest, closed)).1
          ((succ node).foldl (Dijkstra.succStep w) (rest, closed)).2
          (nexp + 1) node.cost hfold.1 hfold.2
        have htr : (Dijkstra.run succ w goal (fuel + 1) op closed nexp).2
            = node.cost :: (Dijkstra.run succ w goal fuel
                ((succ node).foldl (Dijkstra.succStep w) (rest, closed)).1
                ((succ node).foldl (Dijkstra.succStep w) (rest, closed)).2 (nexp + 1)).2 := by
          simp only [Dijkstra.run, hpop, hgoal2]
          simp
        rw [htr]
        constructor
        · intro c hc
          rcases List.mem_cons.mp hc with rfl | hc2
          · exact hnodeb.1
          · exact le_trans hnodeb.1 (ih.1 c hc2)
        · rw [List.sorted_cons]
          exact ⟨fun b hb => ih.1 b hb, ih.2⟩

/-- The concrete grid collaborator stamps successors with
`g = parent.g + edge cost`, so successor g-values never decrease. -/
theorem gridSucc_mono (w h : Int) (obst : List (Int × Int)) (s n' : State)
    (hmem : n' ∈ gridSucc w h obst s) : s.g ≤ n'.g := by
  unfold gridSucc at hmem
  obtain ⟨mv, hmv, hf⟩ := List.mem_filterMap.mp hmem
  by_cases hok : moveOk w h obst (s.x, s.y) mv = true
  · rw [if_pos hok] at hf
    obtain rfl := Option.some.injEq .. ▸ hf
    show s.g ≤ s.g + mv.2.2
    have hpos : (0 : Rat) ≤ mv.2.2 := by
      fin_cases hmv <;> norm_num
    linarith
  · rw [if_neg (by simpa using hok)] at hf
    cases hf

/-- C8: in every Dijkstra execution whose start has `cost = g` (in particular
a fresh start) on a map whose successors carry g-values at least the
parent's (the collaborator stamps cumulative costs with non-negative edges),
the sequence of cost values popped from OPEN is non-decreasing. -/
theorem claim_C8 (succ : State → List State) (w : Int) (fuel : Nat)
    (start goal : State) (hfresh : start.cost = start.g)
    (hmono : ∀ s n', n' ∈ succ s → s.g ≤ n'.g) :
    List.Sorted (· ≤ ·) (Dijkstra.searchTrace succ w fuel start goal) := by
  unfold Dijkstra.searchTrace
  rw [heappush_nil]
  exact (dijkstra_trace_sorted succ w goal hmono fuel [start]
    (PyDict.store [] (start.state_hash w) start.cost) 0 start.cost
    (heapProp_singleton start)
    (fun s hs => by
      rcases List.mem_singleton.mp hs with rfl
      exact ⟨le_rfl, hfresh⟩)).2

/-- C8 witness: the pop trace of the concrete counterexample run is
non-decreasing. -/
theorem claim_C8_witness :
    List.Sorted (· ≤ ·) (Dijkstra.searchTrace cexSucc 6 300 cexStart cexGoal) :=
  claim_C8 cexSucc 6 300 cexStart cexGoal rfl
    (fun s n' hm => gridSucc_mono 6 4 cexObst s n' hm)

/-! ## Termination with the no-path sentinel on unreachable goals. -/

theorem hash_mem_Ico (w h : Int) (s : State) (hs : InB w h s) :
    s.state_hash w ∈ Finset.Ico (0 : Int) (w * h) := by
  obtain ⟨hx0, hxw, hy0, hyh⟩ := hs
  have hw : 0 < w := lt_of_le_of_lt hx0 hxw
  rw [Finset.mem_Ico]
  unfold State.state_hash
  constructor
  · have h1 : 0 ≤ s.y * w := mul_nonneg hy0 (le_of_lt hw)
    linarith
  · have h1 : s.y * w ≤ (h - 1) * w := mul_le_mul_of_nonneg_right (by omega) (le_of_lt hw)
    nlinarith

theorem card_Ico_wh (w h : Int) : (Finset.Ico (0 : Int) (w * h)).card = (w * h).toNat := by
  rw [Int.card_Ico, sub_zero]

theorem dijkstra_succStep_c2 (succ : State → List State) (start : State) (w h : Int)
    (acc : List State × List (Int × Rat)) (nP : State)
    (hreachP : PReach succ start (nP.x, nP.y))
    (hhashP : nP.state_hash w ∈ Finset.Ico (0 : Int) (w * h))
    (hreach : ∀ s ∈ acc.1, PReach succ start (s.x, s.y))
    (hkeys : keysOf acc.2 ⊆ Finset.Ico (0 : Int) (w * h)) :
    (∀ s ∈ (Dijkstra.succStep w acc nP).1, PReach succ start (s.x, s.y)) ∧
    keysOf (Dijkstra.succStep w acc nP).2 ⊆ Finset.Ico (0 : Int) (w * h) ∧
    Dijkstra.mu (w * h).toNat (Dijkstra.succStep w acc nP).1 (Dijkstra.succStep w acc nP).2
      = Dijkstra.mu (w * h).toNat acc.1 acc.2 := by
  unfold Dijkstra.succStep
  cases hfind : PyDict.find acc.2 (nP.state_hash w) with
  | none =>
    simp only
    have hkey : nP.state_hash w ∉ keysOf acc.2 := (PyDict.find_eq_none_iff acc.2 _).mp hfind
    have hksub : keysOf (PyDict.store acc.2 (nP.state_hash w) nP.g)
        ⊆ Finset.Ico (0 : Int) (w * h) := by
      rw [keysOf_store]
      exact Finset.insert_subset hhashP hkeys
    refine ⟨?_, hksub, ?_⟩
    · intro s hs
      have hs2 : s ∈ ({ nP with cost := nP.g } : State) :: acc.1 :=
        (heappush_perm acc.1 _).mem_iff.mp hs
      rcases List.mem_cons.mp hs2 with rfl | hs3
      · exact hreachP
      · exact hreach s hs3
    · unfold Dijkstra.mu
      have hlen : (heappush acc.1 ({ nP with cost := nP.g } : State)).length
          = acc.1.length + 1 := by
        rw [(heappush_perm acc.1 _).length_eq]
        rfl
      have hcard : (keysOf (PyDict.store acc.2 (nP.state_hash w) nP.g)).card
          = (keysOf acc.2).card + 1 := by
        rw [keysOf_store]
        exact Finset.card_insert_of_not_mem hkey
      have hbound : (keysOf (PyDict.store acc.2 (nP.state_hash w) nP.g)).card
          ≤ (w * h).toNat := by
        rw [← card_Ico_wh w h]
        exact Finset.card_le_card hksub
      have he : ({ nP with cost := nP.g } : State).state_hash w = nP.state_hash w := rfl
      simp only [he]
      omega
  | some v =>
    have hmem : nP.state_hash w ∈ keysOf acc.2 := by
      by_contra hn
      rw [← PyDict.find_eq_none_iff acc.2 _] at hn
      rw [hfind] at hn
      cases hn
    by_cases hlt : nP.g < v
    · simp only [hlt, if_true]
      have hkeq : keysOf (PyDict.store acc.2 (nP.state_hash w) nP.g) = keysOf acc.2 := by
        rw [keysOf_store]
        exact Finset.insert_eq_self.mpr hmem
      refine ⟨?_, by rw [hkeq]; exact hkeys, ?_⟩
      · intro s hs
        exact hreach s ((pyHeapify_perm acc.1).mem_iff.mp hs)
      · unfold Dijkstra.mu
        rw [hkeq, (pyHeapify_perm acc.1).length_eq]
    · simp only [hlt, if_false]
      exact ⟨hreach, hkeys, trivial⟩

theorem dijkstra_foldl_c2 (succ : State → List State) (start : State) (w h : Int) :
    ∀ (l : List State) (acc : List State × List (Int × Rat)),
    (∀ nP ∈ l, PReach succ start (nP.x, nP.y) ∧
        nP.state_hash w ∈ Finset.Ico (0 : Int) (w * h)) →
    (∀ s ∈ acc.1, PReach succ start (s.x, s.y)) →
    keysOf acc.2 ⊆ Finset.Ico (0 : Int) (w * h) →
    (∀ s ∈ (l.foldl (Dijkstra.succStep w) acc).1, PReach succ start (s.x, s.y)) ∧
    keysOf (l.foldl (Dijkstra.succStep w) acc).2 ⊆ Finset.Ico (0 : Int) (w * h) ∧
    Dijkstra.mu (w * h).toNat (l.foldl (Dijkstra.succStep w) acc).1
        (l.foldl (Dijkstra.succStep w) acc).2
      = Dijkstra.mu (w * h).toNat acc.1 acc.2
  | [], acc, _, hreach, hkeys => ⟨hreach, hkeys, rfl⟩
  | nP :: t, acc, hl, hreach, hkeys => by
    have hstep := dijkstra_succStep_c2 succ start w h acc nP (hl nP (by simp)).1
      (hl nP (by simp)).2 hreach hkeys
    have ih := dijkstra_foldl_c2 succ start w h t (Dijkstra.succStep w acc nP)
      (fun x hx => hl x (by simp [hx])) hstep.1 hstep.2.1
    exact ⟨ih.1, ih.2.1, ih.2.2.trans hstep.2.2⟩

theorem dijkstra_run_unreachable (succ : State → List State) (start : State)
    (w h : Int) (goal : State)
    (hInB : ∀ s n', n' ∈ succ s → InB w h n')
    (hun : ¬ PReach succ start (goal.x, goal.y)) :
    ∀ (fuel : Nat) (op : List State) (closed : List (Int × Rat)) (nexp : Nat),
    (∀ s ∈ op, PReach succ start (s.x, s.y)) →
    keysOf closed ⊆ Finset.Ico (0 : Int) (w * h) →
    Dijkstra.mu (w * h).toNat op closed < fuel →
    (Dijkstra.run succ w goal fuel op closed nexp).1 = some (.ok (-1, 0))
  | 0, op, closed, nexp, _, _, hmu => absurd hmu (Nat.not_lt_zero _)
  | fuel + 1, op, closed, nexp, hreach, hkeys, hmu => by
    cases hpop : heappop op with
    | none => simp [Dijkstra.run, hpop]
    | some pr =>
      obtain ⟨node, rest⟩ := pr
      have hperm := heappop_perm op node rest hpop
      have hnode : node ∈ op := hperm.mem_iff.mp (by simp)
      have hgoal : node.eqb goal = false := by
        cases hg : node.eqb goal
        · rfl
        · exfalso
          obtain ⟨hx, hy⟩ := (State.eqb_iff node goal).mp hg
          have hr := hreach node hnode
          rw [hx, hy] at hr
          exact hun hr
      have hlen : op.length = rest.length + 1 := by
        rw [← hperm.length_eq]
        rfl
      have hrrest : ∀ s ∈ rest, PReach succ start (s.x, s.y) := by
        intro s hs
        exact hreach s (hperm.mem_iff.mp (by simp [hs]))
      have hfold := dijkstra_foldl_c2 succ start w h (succ node) (rest, closed)
        (fun nP hnP => ⟨PReach.step (hreach node hnode) hnP,
          hash_mem_Ico w h nP (hInB node nP hnP)⟩)
        hrrest hkeys
      have hmu2 : Dijkstra.mu (w * h).toNat
          ((succ node).foldl (Dijkstra.succStep w) (rest, closed)).1
          ((succ node).foldl (Dijkstra.succStep w) (rest, closed)).2 < fuel := by
        rw [hfold.2.2]
        show Dijkstra.mu (w * h).toNat rest closed < fuel
        unfold Dijkstra.mu at hmu ⊢
        omega
      have ih := dijkstra_run_unreachable succ start w h goal hInB hun fuel
        ((succ node).foldl (Dijkstra.succStep w) (rest, closed)).1
        ((succ node).foldl (Dijkstra.succStep w) (rest, closed)).2
        (nexp + 1) hfold.1 hfold.2.1 hmu2
      simp only [Dijkstra.run, hpop, hgoal]
      simpa using ih

theorem list_map_set {α β : Type} (f : α → β) : ∀ (l : List α) (i : Nat) (a : α),
    (l.set i a).map f = (l.map f).set i (f a)
  | [], _, _ => rfl
  | _ :: _, 0, _ => rfl
  | x :: t, i + 1, a => by
    simp only [List.set, List.map_cons, List.map, list_map_set f t i a]

theorem list_getD_map {α β : Type} (f : α → β) : ∀ (l : List α) (i : Nat) (d : α),
    (l.map f).getD i (f d) = f (l.getD i d)
  | [], _, _ => rfl
  | _ :: _, 0, _ => rfl
  | _ :: t, i + 1, d => list_getD_map f t i d

theorem list_mem_set {α : Type} (l : List α) (i : Nat) (a x : α)
    (hi : i < l.length) (hx : x ∈ l.set i a) : x = a ∨ x ∈ l := by
  have hp := pset_perm l i a a hi
  have : x ∈ (a :: l) := hp.mem_iff.mp (List.mem_cons.mpr (Or.inr hx))
  exact List.mem_cons.mp this

theorem list_getD_mem {α : Type} : ∀ (l : List α) (i : Nat) (d : α),
    i < l.length → l.getD i d ∈ l
  | [], i, _, h => absurd h (by simp)
  | _ :: _, 0, _, _ => by simp
  | _ :: t, i + 1, d, h => by
    simp only [List.getD_cons_succ]
    exact List.mem_cons.mpr (Or.inr (list_getD_mem t i d (by simpa using h)))

theorem opHashes_subset (w h : Int) (op : List State)
    (hI1 : ∀ s ∈ op, InB w h s) :
    (op.map (State.state_hash w)).toFinset ⊆ Finset.Ico (0 : Int) (w * h) := by
  intro a ha
  rw [List.mem_toFinset, List.mem_map] at ha
  obtain ⟨s, hs, rfl⟩ := ha
  exact hash_mem_Ico w h s (hI1 s hs)

theorem astar_succStep_c2 (succ : State → List State) (start : State) (w h : Int)
    (goal : State) (acc : List State × List (Int × State)) (nP : State)
    (hreachP : PReach succ start (nP.x, nP.y)) (hInBP : InB w h nP)
    (hI1 : ∀ s ∈ acc.1, PReach succ start (s.x, s.y) ∧ InB w h s)
    (hI2 : (acc.1.map State.pos).Nodup)
    (hI3 : ∀ s ∈ acc.1, PyDict.find acc.2 (s.state_hash w) = none)
    (hI4 : keysOf acc.2 ⊆ Finset.Ico (0 : Int) (w * h)) :
    (∀ s ∈ (AStar.succStep w goal acc nP).1, PReach succ start (s.x, s.y) ∧ InB w h s) ∧
    ((AStar.succStep w goal acc nP).1.map State.pos).Nodup ∧
    (∀ s ∈ (AStar.succStep w goal acc nP).1,
        PyDict.find (AStar.succStep w goal acc nP).2 (s.state_hash w) = none) ∧
    keysOf (AStar.succStep w goal acc nP).2 ⊆ Finset.Ico (0 : Int) (w * h) ∧
    AStar.mu (w * h).toNat w (AStar.succStep w goal acc nP).1 (AStar.succStep w goal acc nP).2
      = AStar.mu (w * h).toNat w acc.1 acc.2 := by
  unfold AStar.succStep
  by_cases hcl : (PyDict.find acc.2 (nP.state_hash w)).isSome = true
  · rw [if_pos hcl]
    exact ⟨hI1, hI2, hI3, hI4, rfl⟩
  · rw [if_neg hcl]
    have hclnone : PyDict.find acc.2 (nP.state_hash w) = none := by
      cases ho : PyDict.find acc.2 (nP.state_hash w)
      · rfl
      · rw [ho] at hcl; exact absurd rfl hcl
    cases hidx : acc.1.findIdx? (fun m => m.eqb nP) with
    | some idx =>
      simp only
      obtain ⟨hilt, hieq⟩ := findIdx?_some_spec (fun m => m.eqb nP) default acc.1 idx hidx
      set m := acc.1.getD idx default with hm
      have hmmem : m ∈ acc.1 := list_getD_mem acc.1 idx default hilt
      by_cases hg : nP.g < m.g
      · rw [if_pos hg]
        set m3 : State :=
          { { m with g := nP.g } with
              cost := nP.g + AStar.h_value goal { m with g := nP.g } } with hm3
        have hmapeq : (acc.1.set idx m3).map State.pos = acc.1.map State.pos := by
          rw [list_map_set]
          have hps : State.pos m3 = (acc.1.map State.pos).getD idx (State.pos default) := by
            rw [list_getD_map State.pos acc.1 idx default]
            rfl
          rw [hps, list_set_self]
        have hhasheq : (acc.1.set idx m3).map (State.state_hash w)
            = acc.1.map (State.state_hash w) := by
          rw [list_map_set]
          have hps : State.state_hash w m3
              = (acc.1.map (State.state_hash w)).getD idx (State.state_hash w default) := by
            rw [list_getD_map (State.state_hash w) acc.1 idx default]
            rfl
          rw [hps, list_set_self]
        have hperm := pyHeapify_perm (acc.1.set idx m3)
        have hmem3 : ∀ x ∈ pyHeapify (acc.1.set idx m3), x = m3 ∨ x ∈ acc.1 := by
          intro x hx
          exact list_mem_set acc.1 idx m3 x hilt (hperm.mem_iff.mp hx)
        refine ⟨?_, ?_, ?_, hI4, ?_⟩
        · intro s hs
          rcases hmem3 s hs with rfl | hs2
          · exact ⟨(hI1 m hmmem).1, (hI1 m hmmem).2⟩
          · exact hI1 s hs2
        · have h1 : ((pyHeapify (acc.1.set idx m3)).map State.pos).Perm
              ((acc.1.set idx m3).map State.pos) := hperm.map State.pos
          rw [hmapeq] at h1
          exact h1.nodup_iff.mpr hI2
        · intro s hs
          rcases hmem3 s hs with rfl | hs2
          · exact hI3 m hmmem
          · exact hI3 s hs2
        · unfold AStar.mu
          have h1 : ((pyHeapify (acc.1.set idx m3)).map (State.state_hash w)).Perm
              (acc.1.map (State.state_hash w)) := by
            have := hperm.map (State.state_hash w)
            rwa [hhasheq] at this
          rw [List.toFinset_eq_of_perm _ _ h1, hperm.length_eq, List.length_set]
      · rw [if_neg hg]
        exact ⟨hI1, hI2, hI3, hI4, rfl⟩
    | none =>
      simp only
      have heqf := findIdx?_none_spec (fun m => m.eqb nP) acc.1 hidx
      set nP2 : State := { nP with cost := nP.g + AStar.h_value goal nP } with hnP2
      have hperm := heappush_perm acc.1 nP2
      have hposout : State.pos nP2 ∉ acc.1.map State.pos := by
        intro hmem
        rw [List.mem_map] at hmem
        obtain ⟨s, hs, hps⟩ := hmem
        have he : s.eqb nP = true := by
          unfold State.pos at hps
          have hx : s.x = nP.x := congrArg Prod.fst hps
          have hy : s.y = nP.y := congrArg Prod.snd hps
          exact State.eqb_self_of_pos s nP hx hy
        have hf : s.eqb nP = false := by simpa using heqf s hs
        rw [he] at hf
        cases hf
      have hhashout : nP.state_hash w ∉ (acc.1.map (State.state_hash w)).toFinset := by
        intro hmem
        rw [List.mem_toFinset, List.mem_map] at hmem
        obtain ⟨s, hs, hhs⟩ := hmem
        obtain ⟨hx, hy⟩ := state_hash_inj w s nP (hI1 s hs).2.1 (hI1 s hs).2.2.1
          hInBP.1 hInBP.2.1 hhs
        have he : s.eqb nP = true := State.eqb_self_of_pos s nP hx hy
        have hf : s.eqb nP = false := by simpa using heqf s hs
        rw [he] at hf
        cases hf
      have hkeyout : nP.state_hash w ∉ keysOf acc.2 :=
        (PyDict.find_eq_none_iff acc.2 _).mp hclnone
      refine ⟨?_, ?_, ?_, hI4, ?_⟩
      · intro s hs
        rcases List.mem_cons.mp (hperm.mem_iff.mp hs) with rfl | hs2
        · exact ⟨hreachP, hInBP⟩
        · exact hI1 s hs2
      · have h1 : ((heappush acc.1 nP2).map State.pos).Perm
            ((nP2 :: acc.1).map State.pos) := hperm.map State.pos
        refine h1.nodup_iff.mpr ?_
        rw [List.map_cons, List.nodup_cons]
        exact ⟨hposout, hI2⟩
      · intro s hs
        rcases List.mem_cons.mp (hperm.mem_iff.mp hs) with rfl | hs2
        · exact hclnone
        · exact hI3 s hs2
      · unfold AStar.mu
        have h1 : ((heappush acc.1 nP2).map (State.state_hash w)).Perm
            (nP.state_hash w :: acc.1.map (State.state_hash w)) := hperm.map _
        rw [List.toFinset_eq_of_perm _ _ h1, List.toFinset_cons, hperm.length_eq]
        have hsets : keysOf acc.2 ∪ insert (nP.state_hash w)
              (acc.1.map (State.state_hash w)).toFinset
            = insert (nP.state_hash w)
              (keysOf acc.2 ∪ (acc.1.map (State.state_hash w)).toFinset) :=
          Finset.union_insert ..
        rw [hsets]
        have hnotin : nP.state_hash w ∉
            keysOf acc.2 ∪ (acc.1.map (State.state_hash w)).toFinset := by
          rw [Finset.mem_union]
          rintro (hmem | hmem)
          · exact hkeyout hmem
          · exact hhashout hmem
        have hcard := Finset.card_insert_of_not_mem hnotin
        have hsub : insert (nP.state_hash w)
              (keysOf acc.2 ∪ (acc.1.map (State.state_hash w)).toFinset)
            ⊆ Finset.Ico (0 : Int) (w * h) := by
          refine Finset.insert_subset (hash_mem_Ico w h nP hInBP) ?_
          exact Finset.union_subset hI4 (opHashes_subset w h acc.1 (fun s hs => (hI1 s hs).2))
        have hbound : (insert (nP.state_hash w)
              (keysOf acc.2 ∪ (acc.1.map (State.state_hash w)).toFinset)).card
            ≤ (w * h).toNat := by
          rw [← card_Ico_wh w h]
          exact Finset.card_le_card hsub
        have hlen : (nP2 :: acc.1).length = acc.1.length + 1 := rfl
        omega

theorem astar_foldl_c2 (succ : State → List State) (start : State) (w h : Int)
    (goal : State) :
    ∀ (l : List State) (acc : List State × List (Int × State)),
    (∀ nP ∈ l, PReach succ start (nP.x, nP.y) ∧ InB w h nP) →
    (∀ s ∈ acc.1, PReach succ start (s.x, s.y) ∧ InB w h s) →
    (acc.1.map State.pos).Nodup →
    (∀ s ∈ acc.1, PyDict.find acc.2 (s.state_hash w) = none) →
    keysOf acc.2 ⊆ Finset.Ico (0 : Int) (w * h) →
    (∀ s ∈ (l.foldl (AStar.succStep w goal) acc).1,
        PReach succ start (s.x, s.y) ∧ InB w h s) ∧
    ((l.foldl (AStar.succStep w goal) acc).1.map State.pos).Nodup ∧
    (∀ s ∈ (l.foldl (AStar.succStep w goal) acc).1,
        PyDict.find (l.foldl (AStar.succStep w goal) acc).2 (s.state_hash w) = none) ∧
    keysOf (l.foldl (AStar.succStep w goal) acc).2 ⊆ Finset.Ico (0 : Int) (w * h) ∧
    AStar.mu (w * h).toNat w (l.foldl (AStar.succStep w goal) acc).1
        (l.foldl (AStar.succStep w goal) acc).2
      = AStar.mu (w * h).toNat w acc.1 acc.2
  | [], acc, _, hI1, hI2, hI3, hI4 => ⟨hI1, hI2, hI3, hI4, rfl⟩
  | nP :: t, acc, hl, hI1, hI2, hI3, hI4 => by
    have hstep := astar_succStep_c2 succ start w h goal acc nP (hl nP (by simp)).1
      (hl nP (by simp)).2 hI1 hI2 hI3 hI4
    have ih := astar_foldl_c2 succ start w h goal t (AStar.succStep w goal acc nP)
      (fun x hx => hl x (by simp [hx])) hstep.1 hstep.2.1 hstep.2.2.1 hstep.2.2.2.1
    exact ⟨ih.1, ih.2.1, ih.2.2.1, ih.2.2.2.1, ih.2.2.2.2.trans hstep.2.2.2.2⟩

theorem astar_run_unreachable (succ : State → List State) (start : State)
    (w h : Int) (goal : State)
    (hInB : ∀ s n', n' ∈ succ s → InB w h n')
    (hun : ¬ PReach succ start (goal.x, goal.y)) :
    ∀ (fuel : Nat) (op : List State) (closed : List (Int × State)) (nexp : Nat),
    (∀ s ∈ op, PReach succ start (s.x, s.y) ∧ InB w h s) →
    (op.map State.pos).Nodup →
    (∀ s ∈ op, PyDict.find closed (s.state_hash w) = none) →
    keysOf closed ⊆ Finset.Ico (0 : Int) (w * h) →
    AStar.mu (w * h).toNat w op closed < fuel →
    AStar.run succ w goal fuel op closed nexp = some (.ok (-1, 0))
  | 0, op, closed, nexp, _, _, _, _, hmu => absurd hmu (Nat.not_lt_zero _)
  | fuel + 1, op, closed, nexp, hI1, hI2, hI3, hI4, hmu => by
    cases hpop : heappop op with
    | none => simp [AStar.run, hpop]
    | some pr =>
      obtain ⟨node, rest⟩ := pr
      have hperm := heappop_perm op node rest hpop
      have hnode : node ∈ op := hperm.mem_iff.mp (by simp)
      have hgoal : node.eqb goal = false := by
        cases hg : node.eqb goal
        · rfl
        · exfalso
          obtain ⟨hx, hy⟩ := (State.eqb_iff node goal).mp hg
          have hr := (hI1 node hnode).1
          rw [hx, hy] at hr
          exact hun hr
      have hlen : op.length = rest.length + 1 := by
        rw [← hperm.length_eq]; rfl
      have hnodup2 : ((node :: rest).map State.pos).Nodup :=
        (hperm.map State.pos).nodup_iff.mpr hI2
      rw [List.map_cons, List.nodup_cons] at hnodup2
      obtain ⟨hposnot, hnoduprest⟩ := hnodup2
      have hashne : ∀ s ∈ rest, node.state_hash w ≠ s.state_hash w := by
        intro s hs heq
        have hsop : s ∈ op := hperm.mem_iff.mp (by simp [hs])
        obtain ⟨hx, hy⟩ := state_hash_inj w node s (hI1 node hnode).2.1
          (hI1 node hnode).2.2.1 (hI1 s hsop).2.1 (hI1 s hsop).2.2.1 heq
        refine hposnot ?_
        rw [List.mem_map]
        exact ⟨s, hs, by unfold State.pos; rw [hx, hy]⟩
      set closed2 := PyDict.store closed (node.state_hash w) node with hc2
      have hI3r : ∀ s ∈ rest, PyDict.find closed2 (s.state_hash w) = none := by
        intro s hs
        rw [hc2, PyDict.find_store_ne closed _ _ node (hashne s hs)]
        exact hI3 s (hperm.mem_iff.mp (by simp [hs]))
      have hI1r : ∀ s ∈ rest, PReach succ start (s.x, s.y) ∧ InB w h s := by
        intro s hs
        exact hI1 s (hperm.mem_iff.mp (by simp [hs]))
      have hI4r : keysOf closed2 ⊆ Finset.Ico (0 : Int) (w * h) := by
        rw [hc2, keysOf_store]
        exact Finset.insert_subset (hash_mem_Ico w h node (hI1 node hnode).2) hI4
      have hfold := astar_foldl_c2 succ start w h goal (succ node) (rest, closed2)
        (fun nP hnP => ⟨PReach.step (hI1 node hnode).1 hnP, hInB node nP hnP⟩)
        hI1r hnoduprest hI3r hI4r
      -- the measure drops by exactly one across the pop and finalization
      have hmu2 : AStar.mu (w * h).toNat w rest closed2 + 1
          = AStar.mu (w * h).toNat w op closed := by
        have hofin : (op.map (State.state_hash w)).toFinset
            = insert (node.state_hash w) ((rest.map (State.state_hash w)).toFinset) := by
          rw [← List.toFinset_eq_of_perm _ _ (hperm.map (State.state_hash w))]
          rw [List.map_cons, List.toFinset_cons]
        have hkeq : keysOf closed2 ∪ (rest.map (State.state_hash w)).toFinset
            = keysOf closed ∪ (op.map (State.state_hash w)).toFinset := by
          rw [hc2, keysOf_store, hofin, Finset.insert_union, Finset.union_insert]
        unfold AStar.mu
        rw [hkeq, hlen]
        have hub : (keysOf closed ∪ (op.map (State.state_hash w)).toFinset).card
            ≤ (w * h).toNat := by
          rw [← card_Ico_wh w h]
          exact Finset.card_le_card (Finset.union_subset hI4
            (opHashes_subset w h op (fun s hs => (hI1 s hs).2)))
        omega
      have hmu3 : AStar.mu (w * h).toNat w
            ((succ node).foldl (AStar.succStep w goal) (rest, closed2)).1
            ((succ node).foldl (AStar.succStep w goal) (rest, closed2)).2 < fuel := by
        rw [hfold.2.2.2.2]
        show AStar.mu (w * h).toNat w rest closed2 < fuel
        omega
      have ih := astar_run_unreachable succ start w h goal hInB hun fuel
        ((succ node).foldl (AStar.succStep w goal) (rest, closed2)).1
        ((succ node).foldl (AStar.succStep w goal) (rest, closed2)).2
        (nexp + 1) hfold.1 hfold.2.1 hfold.2.2.1 hfold.2.2.2.1 hmu3
      simp only [AStar.run, hpop, hgoal]
      simpa using ih

/-- C2: on every grid-bounded map whose goal position is unreachable from the
start, both algorithms exhaust OPEN and return the no-path sentinel (-1, 0)
(given enough fuel for the loop to finish, one unit more than the number of
grid cells suffices). -/
theorem claim_C2 (succ : State → List State) (w h : Int) (fuel : Nat)
    (start goal : State)
    (hInBs : InB w h start)
    (hInB : ∀ s n', n' ∈ succ s → InB w h n')
    (hun : ¬ PReach succ start (goal.x, goal.y))
    (hfuel : (w * h).toNat < fuel) :
    Dijkstra.search succ w fuel start goal = some (.ok (-1, 0)) ∧
    AStar.search succ w fuel start goal = some (.ok (-1, 0)) := by
  have hw : (0 : Int) < w := lt_of_le_of_lt hInBs.1 hInBs.2.1
  have hh : (0 : Int) < h := lt_of_le_of_lt hInBs.2.2.1 hInBs.2.2.2
  have hwh : (1 : Int) ≤ w * h := by nlinarith
  have hN : 1 ≤ (w * h).toNat := by omega
  have hhs := hash_mem_Ico w h start hInBs
  constructor
  · unfold Dijkstra.search
    rw [heappush_nil]
    refine dijkstra_run_unreachable succ start w h goal hInB hun fuel [start]
      (PyDict.store [] (start.state_hash w) start.cost) 0 ?_ ?_ ?_
    · intro s hs
      rcases List.mem_singleton.mp hs with rfl
      exact PReach.base
    · rw [keysOf_store]
      refine Finset.insert_subset hhs ?_
      simp [keysOf]
    · unfold Dijkstra.mu
      rw [keysOf_store]
      have hc : (insert (start.state_hash w) (keysOf ([] : List (Int × Rat)))).card = 1 := by
        simp [keysOf]
      rw [hc]
      simp only [List.length_cons, List.length_nil]
      omega
  · unfold AStar.search
    rw [heappush_nil]
    refine astar_run_unreachable succ start w h goal hInB hun fuel [start] [] 0
      ?_ ?_ ?_ ?_ ?_
    · intro s hs
      rcases List.mem_singleton.mp hs with rfl
      exact ⟨PReach.base, hInBs⟩
    · simp
    · intro s _
      rfl
    · intro a ha
      simp [keysOf] at ha
    · unfold AStar.mu
      have hc : (keysOf ([] : List (Int × State))
          ∪ ([start].map (State.state_hash w)).toFinset).card = 1 := by
        simp [keysOf]
      rw [hc]
      simp only [List.length_cons, List.length_nil]
      omega

/-- C2 witness: on a one-cell map with no moves and a goal off the start
cell, both algorithms return the sentinel. -/
theorem claim_C2_witness :
    Dijkstra.search (fun _ => []) 1 2 (State.init 0 0) (State.init 5 5)
      = some (.ok (-1, 0)) ∧
    AStar.search (fun _ => []) 1 2 (State.init 0 0) (State.init 5 5)
      = some (.ok (-1, 0)) := by
  refine claim_C2 (fun _ => []) 1 1 2 (State.init 0 0) (State.init 5 5)
    ⟨le_rfl, one_pos, le_rfl, one_pos⟩
    (fun s n' hn => absurd hn (List.not_mem_nil n')) ?_ (by norm_num)
  intro hr
  have hgen : ∀ p, PReach (fun _ => ([] : List State)) (State.init 0 0) p →
      p = ((State.init 0 0).x, (State.init 0 0).y) := by
    intro p hp
    induction hp with
    | base => rfl
    | step hs hm ih => exact absurd hm (List.not_mem_nil _)
  have := hgen _ hr
  simp [State.init] at this
